import Mathlib

/-!
# bitvote: bitwise majority vote over redundant copies of a file

A shallow embedding of `main.go` of traetox/bitvote.

* A Go `byte` is a `Nat`; the mask `1 << i` is computed at width 8
  (`(1 <<< i) % 256`).
* A Go `int` is an `Int`.  The counters `one` and `corrected` of `voteByte` are
  bounded by the length of a slice and by 8, so they never wrap around.  The
  running total `corrected` of `vote` can reach eight times the length of a
  slice: `voteLoop` and `vote` carry it as the integer it stands for, and
  `voteLoopW w` and `voteW w` carry it as a two's complement `int` of `w` bits
  (`w` is 32 or 64 in Go), wrapping around at `corrected += n`.
* A run-time panic (index out of range) is the result `none`.
* The output writer of `vote` is a `Sink`: the bytes it has accepted so far and
  the outcome of every later `WriteByte` and of `Flush`.
-/

namespace Bitvote

/-! ## Data model -/

/-- The errors `vote` can return: its own `errors.New("Invalid vote set")`, or
an error handed back by the output writer. -/
inductive VoteErr where
  | invalidVoteSet : VoteErr
  | sinkErr : Nat → VoteErr
deriving DecidableEq

/-- The buffered output writer as `vote` sees it.  `accepted` are the bytes
taken so far, oldest first.  `writeErr n` is the error of the `WriteByte` call
made when `n` bytes have been taken (`none`: the byte is taken), `flushErr` is
the error of `Flush`. -/
structure Sink where
  accepted : List Nat
  writeErr : Nat → Option Nat
  flushErr : Option Nat

/-- The call `out.WriteByte(b)`: the error, or the sink with `b` appended. -/
def Sink.WriteByte (out : Sink) (b : Nat) : Except Nat Sink :=
  match out.writeErr out.accepted.length with
  | some e => Except.error e
  | none => Except.ok { out with accepted := out.accepted ++ [b] }

/-- The call `out.Flush()`: its error, if any. -/
def Sink.Flush (out : Sink) : Option Nat := out.flushErr

/-- A sink on which no `WriteByte` and no `Flush` fails. -/
def Sink.AcceptsAll (out : Sink) : Prop :=
  (∀ n, out.writeErr n = none) ∧ out.flushErr = none

/-- What a returning call of `vote` leaves behind: the sink, and the two
results `(int, error)`. -/
structure VoteResult where
  out : Sink
  n : Int
  err : Option VoteErr

/-! ## `fastCheck` (main.go, 141-149) -/

/-- The loop `for i := range b { if b[i] != x { return false } }; return true`. -/
def fastCheckLoop (x : Nat) : List Nat → Bool
  | [] => true
  | y :: rest => if y != x then false else fastCheckLoop x rest

/-- The function `fastCheck(b)`: reads `b[0]` (a panic on the empty slice), then compares
every element with it. -/
def fastCheck (b : List Nat) : Option Bool :=
  match b[0]? with
  | none => none
  | some x => some (fastCheckLoop x b)

/-! ## `voteByte` (main.go, 114-139) -/

/-- The byte constant `1 << i`. -/
def bitMask (i : Nat) : Nat := (1 <<< i) % 256

/-- The loop `for _, b := range bt { if (b & (1 << i)) != 0 { one++ } }`,
started with the counter at `one`. -/
def countOnes (i : Nat) : List Nat → Int → Int
  | [], one => one
  | b :: rest, one =>
    countOnes i rest (if (b &&& bitMask i) != 0 then one + 1 else one)

/-- One turn of the loop over the bit positions, on the state
`(out, corrected)`. -/
def voteBit (bt : List Nat) (st : Nat × Int) (i : Nat) : Nat × Int :=
  let one := countOnes i bt 0
  let out := if one > (bt.length : Int) / 2 then st.1 ||| bitMask i else st.1
  let corrected :=
    if one != (bt.length : Int) && one != 0 then st.2 + 1 else st.2
  (out, corrected)

/-- The bitwise vote: `for i := uint(0); i < 8; i++ { ... }` from
`out = 0, corrected = 0`. -/
def bitwiseVote (bt : List Nat) : Nat × Int :=
  (List.range 8).foldl (voteBit bt) (0, 0)

/-- The function `voteByte(bt)`: the all-identical shortcut, else the bitwise vote. -/
def voteByte (bt : List Nat) : Option (Nat × Int) :=
  match fastCheck bt with
  | none => none
  | some true =>
    match bt[0]? with
    | none => none
    | some x => some (x, 0)
  | some false => some (bitwiseVote bt)

/-! ## `vote` (main.go, 93-112) -/

/-- The loop `for j := range fins { byteSet[j] = fins[j][i] }`, from index `j`
on, over the buffers still to visit.  Both index expressions are checked. -/
def fillColumn (i : Nat) : List (List Nat) → Nat → List Nat → Option (List Nat)
  | [], _, byteSet => some byteSet
  | f :: rest, j, byteSet =>
    match f[i]? with
    | none => none
    | some v =>
      if j < byteSet.length then fillColumn i rest (j + 1) (byteSet.set j v)
      else none

/-- The loop `for i := 0; i < outsize; i++ { ... }` over the offsets still to
visit, followed by `return corrected, out.Flush()`.  The total `corrected` is
the exact integer; `voteLoopW` is the same loop with the total in an `int` of
`w` bits, and `voteLoopW_eq` relates the two. -/
def voteLoop (fins : List (List Nat)) :
    List Nat → Sink → List Nat → Int → Option VoteResult
  | [], out, _, corrected =>
    some ⟨out, corrected, (out.Flush).map VoteErr.sinkErr⟩
  | i :: rest, out, byteSet, corrected =>
    match fillColumn i fins 0 byteSet with
    | none => none
    | some byteSet =>
      match voteByte byteSet with
      | none => none
      | some (b, n) =>
        match out.WriteByte b with
        | Except.error e => some ⟨out, -1, some (VoteErr.sinkErr e)⟩
        | Except.ok out => voteLoop fins rest out byteSet (corrected + n)

/-- The function `vote(fout, fins)`: the guard on the empty list, then the
loop over the offsets `0 .. len(fins[0]) - 1` with a zeroed column buffer of
`len(fins)` bytes. -/
def vote (fout : Sink) (fins : List (List Nat)) : Option VoteResult :=
  if fins.length == 0 then some ⟨fout, -1, some VoteErr.invalidVoteSet⟩
  else
    match fins[0]? with
    | none => none
    | some f0 =>
      voteLoop fins (List.range f0.length) fout (List.replicate fins.length 0) 0

/-! ## `vote` with an `int` of `w` bits -/

/-- The value a two's complement `int` of `w` bits holds after a computation
whose exact result is `x`: the representative of `x` modulo `2 ^ w` in
`[-2 ^ (w - 1), 2 ^ (w - 1))`. -/
def wrapInt (w : Nat) (x : Int) : Int := (x + 2 ^ (w - 1)) % 2 ^ w - 2 ^ (w - 1)

/-- The loop of `vote` over the offsets, as `voteLoop`, with `corrected += n`
computed in an `int` of `w` bits. -/
def voteLoopW (w : Nat) (fins : List (List Nat)) :
    List Nat → Sink → List Nat → Int → Option VoteResult
  | [], out, _, corrected =>
    some ⟨out, corrected, (out.Flush).map VoteErr.sinkErr⟩
  | i :: rest, out, byteSet, corrected =>
    match fillColumn i fins 0 byteSet with
    | none => none
    | some byteSet =>
      match voteByte byteSet with
      | none => none
      | some (b, n) =>
        match out.WriteByte b with
        | Except.error e => some ⟨out, -1, some (VoteErr.sinkErr e)⟩
        | Except.ok out => voteLoopW w fins rest out byteSet (wrapInt w (corrected + n))

/-- The function `vote(fout, fins)` with an `int` of `w` bits. -/
def voteW (w : Nat) (fout : Sink) (fins : List (List Nat)) : Option VoteResult :=
  if fins.length == 0 then some ⟨fout, -1, some VoteErr.invalidVoteSet⟩
  else
    match fins[0]? with
    | none => none
    | some f0 =>
      voteLoopW w fins (List.range f0.length) fout (List.replicate fins.length 0) 0

/-- The bit count `8*lastLen` that `main` prints next to the total (main.go,
90), in an `int` of `w` bits. -/
def reportedBits (w : Nat) (lastLen : Int) : Int := wrapInt w (8 * lastLen)

/-- A result of `vote` with its count brought into an `int` of `w` bits. -/
def wrapResult (w : Nat) (r : VoteResult) : VoteResult := ⟨r.out, wrapInt w r.n, r.err⟩

/-! ## The acquisition loop of `main` (main.go, 68-85) -/

/-- The loop of `main` over the files read so far: `none` in `reads` is a file
`ioutil.ReadFile` failed on.  The result is `some fins` when the loop runs to
its end, so that `vote(fout, fins)` is called, and `none` when it returns
early. -/
def acquire : List (Option (List Nat)) → Int → List (List Nat) → Option (List (List Nat))
  | [], _, fins => some fins
  | none :: _, _, _ => none
  | some bts :: rest, lastLen, fins =>
    let lastLen := if lastLen == 0 then (bts.length : Int) else lastLen
    if lastLen != (bts.length : Int) then none
    else acquire rest lastLen (fins ++ [bts])

/-- The buffers `main` passes to `vote`, from `var fins [][]byte` and
`var lastLen int`. -/
def mainFins (reads : List (Option (List Nat))) : Option (List (List Nat)) :=
  acquire reads 0 []

/-! ## Vocabulary of the statements -/

/-- The number of bytes of the column with bit `k` set. -/
def ones (bt : List Nat) (k : Nat) : Nat := (bt.filter (fun b => b.testBit k)).length

/-- Bit position `k` is not unanimous: some byte has it set, some has not. -/
def nonUnanimous (bt : List Nat) (k : Nat) : Bool :=
  ones bt k != 0 && ones bt k != bt.length

/-- The column at offset `i`: byte `i` of every buffer, in the order of the
buffers.  The default of `getD` is not used when every buffer is longer than
`i`. -/
def column (fins : List (List Nat)) (i : Nat) : List Nat :=
  fins.map (fun f => f.getD i 0)

/-- A sink that accepts everything, holding `acc`. -/
def okSink (acc : List Nat) : Sink := ⟨acc, fun _ => none, none⟩

/-- A sink that accepts everything but the write made when `k` bytes have been
taken, which fails with error `e`. -/
def failingSink (k e : Nat) : Sink := ⟨[], fun n => if n = k then some e else none, none⟩

/-- Bit `k` of the column wins the vote: strictly more than half of the bytes
have it set. -/
def majority (bt : List Nat) (k : Nat) : Bool := decide (bt.length / 2 < ones bt k)

/-- The pair `voteByte` returns, with a default for the empty column. -/
def voteByteD (bt : List Nat) : Nat × Int := (voteByte bt).getD (0, 0)

/-- The decided bytes of the offsets `l`, in the order of `l`. -/
def decidedBytes (fins : List (List Nat)) (l : List Nat) : List Nat :=
  l.map (fun i => (voteByteD (column fins i)).1)

/-- The sum of the corrected counts of the offsets `l`. -/
def correctedSum (fins : List (List Nat)) (l : List Nat) : Int :=
  (l.map (fun i => (voteByteD (column fins i)).2)).sum

/-- The number of bytes of the column whose bit `k` differs from bit `k` of
`y`. -/
def differing (bt : List Nat) (y k : Nat) : Nat :=
  (bt.filter (fun b => b.testBit k != y.testBit k)).length

/-- The buffers `A_1 ++ B_1, ..., A_N ++ B_N`. -/
def concatBuffers (As Bs : List (List Nat)) : List (List Nat) :=
  List.zipWith (fun a b => a ++ b) As Bs

/-! ## Bit-level lemmas -/

theorem bitMask_eq {i : Nat} (h : i < 8) : bitMask i = 2 ^ i := by
  unfold bitMask
  rw [Nat.one_shiftLeft]
  interval_cases i <;> rfl

theorem and_bitMask_ne_zero {i : Nat} (h : i < 8) (b : Nat) :
    ((b &&& bitMask i) != 0) = b.testBit i := by
  rw [bitMask_eq h, Nat.and_comm, Nat.two_pow_and]
  cases hb : b.testBit i <;> simp

theorem ones_nil (k : Nat) : ones [] k = 0 := rfl

theorem ones_cons (b : Nat) (bt : List Nat) (k : Nat) :
    ones (b :: bt) k = (if b.testBit k then 1 else 0) + ones bt k := by
  unfold ones
  cases hb : b.testBit k <;> simp [List.filter_cons, hb]
  omega

theorem ones_le (bt : List Nat) (k : Nat) : ones bt k ≤ bt.length :=
  List.length_filter_le _ _

theorem countOnes_eq {i : Nat} (h : i < 8) (bt : List Nat) (one : Int) :
    countOnes i bt one = one + (ones bt i : Int) := by
  induction bt generalizing one with
  | nil => simp [countOnes, ones_nil]
  | cons b rest ih =>
    rw [countOnes, ih, and_bitMask_ne_zero h, ones_cons]
    cases hb : b.testBit i <;> simp
    omega

theorem voteBit_eq {i : Nat} (h : i < 8) (bt : List Nat) (st : Nat × Int) :
    voteBit bt st i =
      (if majority bt i then st.1 ||| 2 ^ i else st.1,
       if nonUnanimous bt i then st.2 + 1 else st.2) := by
  have hle := ones_le bt i
  unfold voteBit
  simp only [countOnes_eq h, bitMask_eq h, Int.zero_add]
  congr 1
  · have : ((ones bt i : Int) > (bt.length : Int) / 2) ↔ majority bt i = true := by
      simp only [majority, decide_eq_true_eq]; omega
    by_cases hm : majority bt i = true
    · rw [if_pos (this.mpr hm), if_pos hm]
    · rw [if_neg (fun hc => hm (this.mp hc)), if_neg hm]
  · have : (((ones bt i : Int) != (bt.length : Int) && (ones bt i : Int) != 0)) =
        nonUnanimous bt i := by
      unfold nonUnanimous
      rw [Bool.eq_iff_iff]
      simp only [Bool.and_eq_true, bne_iff_ne, ne_eq]
      omega
    rw [this]

/-! ## The loop over the eight bit positions -/

theorem foldl_voteBit_snd (bt : List Nat) (l : List Nat) (hl : ∀ i ∈ l, i < 8)
    (st : Nat × Int) :
    (l.foldl (voteBit bt) st).2 = st.2 + ((l.filter (nonUnanimous bt)).length : Int) := by
  induction l generalizing st with
  | nil => simp
  | cons i rest ih =>
    have hi : i < 8 := hl i (List.mem_cons_self _ _)
    rw [List.foldl_cons, ih (fun j hj => hl j (List.mem_cons_of_mem _ hj)), voteBit_eq hi]
    cases hn : nonUnanimous bt i <;> simp [List.filter_cons, hn]
    omega

theorem foldl_voteBit_testBit (bt : List Nat) (l : List Nat) (hl : ∀ i ∈ l, i < 8)
    (st : Nat × Int) (k : Nat) :
    (l.foldl (voteBit bt) st).1.testBit k =
      (st.1.testBit k || (decide (k ∈ l) && majority bt k)) := by
  induction l generalizing st with
  | nil => simp
  | cons i rest ih =>
    have hi : i < 8 := hl i (List.mem_cons_self _ _)
    rw [List.foldl_cons, ih (fun j hj => hl j (List.mem_cons_of_mem _ hj)), voteBit_eq hi]
    by_cases hik : i = k
    · subst hik
      cases hm : majority bt i <;> simp [hm, Nat.testBit_two_pow_self]
    · have hki : ¬ k = i := fun h => hik h.symm
      cases hm : majority bt i <;>
        simp [hm, hki, Nat.testBit_two_pow_of_ne hik]

theorem bitwiseVote_testBit (bt : List Nat) {k : Nat} (hk : k < 8) :
    (bitwiseVote bt).1.testBit k = majority bt k := by
  unfold bitwiseVote
  rw [foldl_voteBit_testBit bt _ (fun i hi => List.mem_range.mp hi)]
  simp [List.mem_range.mpr hk]

theorem bitwiseVote_snd (bt : List Nat) :
    (bitwiseVote bt).2 = (((List.range 8).filter (nonUnanimous bt)).length : Int) := by
  unfold bitwiseVote
  rw [foldl_voteBit_snd bt _ (fun i hi => List.mem_range.mp hi)]
  simp

/-! ## The shortcut for identical bytes -/

theorem fastCheckLoop_eq_true (x : Nat) (bt : List Nat) :
    fastCheckLoop x bt = true ↔ ∀ y ∈ bt, y = x := by
  induction bt with
  | nil => simp [fastCheckLoop]
  | cons y rest ih =>
    by_cases hy : y = x
    · simp [fastCheckLoop, hy, ih]
    · simp [fastCheckLoop, hy]

theorem voteByte_cons (x : Nat) (rest : List Nat) :
    voteByte (x :: rest) =
      some (if fastCheckLoop x (x :: rest) then (x, 0) else bitwiseVote (x :: rest)) := by
  unfold voteByte fastCheck
  cases h : fastCheckLoop x (x :: rest) <;> simp [h]

theorem ones_of_all_eq (x : Nat) (bt : List Nat) (h : ∀ y ∈ bt, y = x) (k : Nat) :
    ones bt k = if x.testBit k then bt.length else 0 := by
  induction bt with
  | nil => simp [ones_nil]
  | cons y rest ih =>
    have hy : y = x := h y (List.mem_cons_self _ _)
    rw [ones_cons, ih (fun z hz => h z (List.mem_cons_of_mem _ hz)), hy]
    cases hb : x.testBit k <;> simp
    omega

/-- What `voteByte` returns on a non-empty column, on either path: bit `k` of
the byte is the majority of bit `k`, and the count is the number of bit
positions that are not unanimous. -/
theorem voteByte_spec (bt : List Nat) (hne : bt ≠ []) :
    ∃ b c, voteByte bt = some (b, c) ∧
      (∀ k, k < 8 → b.testBit k = majority bt k) ∧
      c = (((List.range 8).filter (nonUnanimous bt)).length : Int) := by
  obtain ⟨x, rest, rfl⟩ := List.exists_cons_of_ne_nil hne
  rw [voteByte_cons]
  by_cases hf : fastCheckLoop x (x :: rest) = true
  · rw [if_pos hf]
    have hall := (fastCheckLoop_eq_true x (x :: rest)).mp hf
    refine ⟨x, 0, rfl, ?_, ?_⟩
    · intro k _
      unfold majority
      rw [ones_of_all_eq x _ hall k]
      cases hb : x.testBit k <;> simp
      omega
    · have : (List.range 8).filter (nonUnanimous (x :: rest)) = [] := by
        rw [List.filter_eq_nil_iff]
        intro k _
        unfold nonUnanimous
        rw [ones_of_all_eq x _ hall k]
        cases hb : x.testBit k <;> simp
      rw [this]; rfl
  · rw [if_neg hf]
    exact ⟨_, _, rfl, fun k hk => bitwiseVote_testBit _ hk, bitwiseVote_snd _⟩

/-! ## The column buffer -/

theorem column_length (fins : List (List Nat)) (i : Nat) :
    (column fins i).length = fins.length := by
  simp [column]

theorem column_ne_nil (fins : List (List Nat)) (i : Nat) (hne : fins ≠ []) :
    column fins i ≠ [] := by
  intro h
  have := column_length fins i
  rw [h] at this
  exact hne (List.eq_nil_of_length_eq_zero this.symm)

theorem column_cons (f : List Nat) (rest : List (List Nat)) (i : Nat) :
    column (f :: rest) i = f.getD i 0 :: column rest i := rfl

theorem take_succ_set_self (bs : List Nat) (j v : Nat) (hj : j < bs.length) :
    (bs.set j v).take (j + 1) = bs.take j ++ [v] := by
  rw [List.set_eq_take_append_cons_drop, if_pos hj]
  have hl : (List.take j bs).length = j := by simp; omega
  rw [List.take_append_eq_append_take, hl]
  simp

theorem drop_succ_set_self (bs : List Nat) (j n v : Nat) :
    (bs.set j v).drop (j + 1 + n) = bs.drop (j + (n + 1)) := by
  rw [List.drop_set_of_lt v bs (by omega)]
  congr 1; omega

/-- The inner loop of `vote` overwrites the slots `j ..` of the buffer with the
column and leaves the rest. -/
theorem fillColumn_eq (i : Nat) (fins : List (List Nat)) (hi : ∀ f ∈ fins, i < f.length)
    (j : Nat) (bs : List Nat) (hlen : j + fins.length ≤ bs.length) :
    fillColumn i fins j bs =
      some (bs.take j ++ column fins i ++ bs.drop (j + fins.length)) := by
  induction fins generalizing j bs with
  | nil => simp [fillColumn, column]
  | cons f rest ih =>
    have hf : i < f.length := hi f (List.mem_cons_self _ _)
    have hj : j < bs.length := by simp at hlen; omega
    have hget : f[i]? = some (f.getD i 0) := by
      rw [List.getD_eq_getElem _ _ hf, List.getElem?_eq_getElem hf]
    rw [fillColumn, hget]
    simp only [hj, if_true]
    rw [ih (fun g hg => hi g (List.mem_cons_of_mem _ hg)) (j + 1) (bs.set j (f.getD i 0))
      (by simp at hlen ⊢; omega)]
    rw [take_succ_set_self bs j _ hj, drop_succ_set_self, column_cons]
    simp

/-- The inner loop of `vote` on a buffer as long as `fins` leaves exactly the
column in it, whatever the buffer held before. -/
theorem fillColumn_zero (i : Nat) (fins : List (List Nat)) (hi : ∀ f ∈ fins, i < f.length)
    (bs : List Nat) (hlen : bs.length = fins.length) :
    fillColumn i fins 0 bs = some (column fins i) := by
  rw [fillColumn_eq i fins hi 0 bs (by omega)]
  simp [← hlen]

/-! ## The loop over the offsets -/

theorem voteByte_eq_voteByteD (bt : List Nat) (hne : bt ≠ []) :
    voteByte bt = some (voteByteD bt) := by
  obtain ⟨b, c, hv, _⟩ := voteByte_spec bt hne
  simp [voteByteD, hv]

/-- One turn of the outer loop when the writer takes the byte. -/
theorem voteLoop_cons_ok (fins : List (List Nat)) (hne : fins ≠ []) (i : Nat)
    (rest : List Nat) (out : Sink) (bs : List Nat) (c : Int)
    (hi : ∀ f ∈ fins, i < f.length) (hbs : bs.length = fins.length)
    (hw : out.writeErr out.accepted.length = none) :
    voteLoop fins (i :: rest) out bs c =
      voteLoop fins rest
        { out with accepted := out.accepted ++ [(voteByteD (column fins i)).1] }
        (column fins i) (c + (voteByteD (column fins i)).2) := by
  rw [voteLoop, fillColumn_zero i fins hi bs hbs]
  simp only [voteByte_eq_voteByteD _ (column_ne_nil fins i hne), Sink.WriteByte, hw]

/-- One turn of the outer loop when the writer refuses the byte. -/
theorem voteLoop_cons_fail (fins : List (List Nat)) (hne : fins ≠ []) (i : Nat)
    (rest : List Nat) (out : Sink) (bs : List Nat) (c : Int) (e : Nat)
    (hi : ∀ f ∈ fins, i < f.length) (hbs : bs.length = fins.length)
    (hw : out.writeErr out.accepted.length = some e) :
    voteLoop fins (i :: rest) out bs c = some ⟨out, -1, some (VoteErr.sinkErr e)⟩ := by
  rw [voteLoop, fillColumn_zero i fins hi bs hbs]
  simp only [voteByte_eq_voteByteD _ (column_ne_nil fins i hne), Sink.WriteByte, hw]

/-- The outer loop over offsets `pre` whose writes are all taken: it reaches the
rest of the offsets with the decided bytes of `pre` appended to the sink and
their counts added. -/
theorem voteLoop_append (fins : List (List Nat)) (hne : fins ≠ []) (pre rest : List Nat)
    (out : Sink) (bs : List Nat) (c : Int)
    (hi : ∀ i ∈ pre, ∀ f ∈ fins, i < f.length) (hbs : bs.length = fins.length)
    (hw : ∀ t, t < pre.length → out.writeErr (out.accepted.length + t) = none) :
    ∃ bs', bs'.length = fins.length ∧
      voteLoop fins (pre ++ rest) out bs c =
        voteLoop fins rest
          { out with accepted := out.accepted ++ decidedBytes fins pre }
          bs' (c + correctedSum fins pre) := by
  induction pre generalizing out bs c with
  | nil => exact ⟨bs, hbs, by simp [decidedBytes, correctedSum]⟩
  | cons i pre ih =>
    have h0 : out.writeErr out.accepted.length = none := by
      simpa using hw 0 (by simp)
    rw [List.cons_append,
      voteLoop_cons_ok fins hne i _ out bs c (hi i (List.mem_cons_self _ _)) hbs h0]
    obtain ⟨bs', hbs', heq⟩ := ih
      { out with accepted := out.accepted ++ [(voteByteD (column fins i)).1] }
      (column fins i) (c + (voteByteD (column fins i)).2)
      (fun k hk => hi k (List.mem_cons_of_mem _ hk)) (column_length fins i)
      (fun t ht => by
        have := hw (t + 1) (by simp; omega)
        simp only [List.length_append, List.length_singleton]
        rw [← this]; congr 1; omega)
    refine ⟨bs', hbs', ?_⟩
    rw [heq]
    simp [decidedBytes, correctedSum, List.append_assoc, add_assoc]

theorem voteByte_replicate_succ (M x : Nat) :
    voteByte (List.replicate (M + 1) x) = some (x, 0) := by
  rw [List.replicate_succ, voteByte_cons, ← List.replicate_succ]
  have : fastCheckLoop x (List.replicate (M + 1) x) = true :=
    (fastCheckLoop_eq_true x _).mpr (fun y hy => List.eq_of_mem_replicate hy)
  rw [if_pos this]

theorem vote_cons (out : Sink) (f0 : List Nat) (rest : List (List Nat)) :
    vote out (f0 :: rest) =
      voteLoop (f0 :: rest) (List.range f0.length) out
        (List.replicate (f0 :: rest).length 0) 0 := by
  simp [vote]

/-- The whole of `vote` on a valid input set when every write and the flush
succeed. -/
theorem vote_acceptsAll (out : Sink) (fins : List (List Nat)) (L : Nat) (hne : fins ≠ [])
    (hlen : ∀ f ∈ fins, f.length = L) (hacc : out.AcceptsAll) :
    vote out fins =
      some ⟨{ out with accepted := out.accepted ++ decidedBytes fins (List.range L) },
        correctedSum fins (List.range L), none⟩ := by
  obtain ⟨f0, rest, rfl⟩ := List.exists_cons_of_ne_nil hne
  have hL : f0.length = L := hlen f0 (List.mem_cons_self _ _)
  rw [vote_cons, hL]
  obtain ⟨bs', _, heq⟩ := voteLoop_append (f0 :: rest) hne (List.range L) [] out
    (List.replicate (f0 :: rest).length 0) 0
    (fun i hi f hf => by rw [hlen f hf]; exact List.mem_range.mp hi)
    (by simp) (fun t _ => hacc.1 _)
  rw [List.append_nil] at heq
  rw [heq, voteLoop]
  simp [Sink.Flush, hacc.2]

theorem map_getD_range (B : List Nat) :
    (List.range B.length).map (fun i => B.getD i 0) = B := by
  apply List.ext_getElem
  · simp
  · intro n h1 h2
    simp [List.getElem?_eq_getElem h2]

theorem column_replicate (N : Nat) (B : List Nat) (i : Nat) :
    column (List.replicate N B) i = List.replicate N (B.getD i 0) := by
  simp [column]

theorem voteByteD_replicate_succ (M x : Nat) :
    voteByteD (List.replicate (M + 1) x) = (x, 0) := by
  simp [voteByteD, voteByte_replicate_succ]

/-- Voting `M + 1` copies of `B` into a sink that takes everything. -/
theorem vote_replicate_succ (out : Sink) (M : Nat) (B : List Nat) (hacc : out.AcceptsAll) :
    vote out (List.replicate (M + 1) B) =
      some ⟨{ out with accepted := out.accepted ++ B }, 0, none⟩ := by
  rw [vote_acceptsAll out _ B.length (by simp) (fun f hf => by
    rw [List.eq_of_mem_replicate hf]) hacc]
  have h1 : decidedBytes (List.replicate (M + 1) B) (List.range B.length) = B := by
    unfold decidedBytes
    simp only [column_replicate, voteByteD_replicate_succ]
    exact map_getD_range B
  have h2 : correctedSum (List.replicate (M + 1) B) (List.range B.length) = 0 := by
    unfold correctedSum
    simp only [column_replicate, voteByteD_replicate_succ]
    simp
  rw [h1, h2]

/-! ## Errors and panics of the loop over the offsets -/

/-- The loop over the offsets never returns the error of the empty vote set. -/
theorem voteLoop_err_ne_invalid (fins : List (List Nat)) (l : List Nat) (out : Sink)
    (bs : List Nat) (c : Int) (r : VoteResult) (h : voteLoop fins l out bs c = some r) :
    r.err ≠ some VoteErr.invalidVoteSet := by
  induction l generalizing out bs c with
  | nil =>
    simp only [voteLoop, Option.some.injEq] at h
    subst h
    cases hf : out.Flush <;> simp [hf]
  | cons i rest ih =>
    rw [voteLoop] at h
    split at h
    · simp at h
    · split at h
      · simp at h
      · split at h
        · simp only [Option.some.injEq] at h
          subst h
          simp
        · exact ih _ _ _ h

theorem writeByte_acceptsAll (out out' : Sink) (b : Nat) (hacc : out.AcceptsAll)
    (h : out.WriteByte b = Except.ok out') : out'.AcceptsAll := by
  unfold Sink.WriteByte at h
  rw [hacc.1] at h
  simp only [Except.ok.injEq] at h
  subst h
  exact hacc

/-- With a sink that accepts everything the loop over the offsets returns no
error. -/
theorem voteLoop_err_none (fins : List (List Nat)) (l : List Nat) (out : Sink)
    (bs : List Nat) (c : Int) (r : VoteResult) (hacc : out.AcceptsAll)
    (h : voteLoop fins l out bs c = some r) : r.err = none := by
  induction l generalizing out bs c with
  | nil =>
    simp only [voteLoop, Option.some.injEq] at h
    subst h
    simp [Sink.Flush, hacc.2]
  | cons i rest ih =>
    rw [voteLoop] at h
    split at h
    · simp at h
    · split at h
      · simp at h
      · split at h
        · rename_i e hw
          unfold Sink.WriteByte at hw
          rw [hacc.1] at hw
          simp at hw
        · rename_i out' hw
          exact ih _ _ _ (writeByte_acceptsAll out out' _ hacc hw) h

/-- On offsets that every buffer has, the loop over the offsets returns,
whatever the sink does. -/
theorem voteLoop_returns (fins : List (List Nat)) (hne : fins ≠ []) (l : List Nat)
    (hl : ∀ i ∈ l, ∀ f ∈ fins, i < f.length) (out : Sink) (bs : List Nat)
    (hbs : bs.length = fins.length) (c : Int) :
    ∃ r, voteLoop fins l out bs c = some r := by
  induction l generalizing out bs c with
  | nil => exact ⟨_, by rw [voteLoop]⟩
  | cons i rest ih =>
    have hi := hl i (List.mem_cons_self _ _)
    cases hw : out.writeErr out.accepted.length with
    | none =>
      rw [voteLoop_cons_ok fins hne i rest out bs c hi hbs hw]
      exact ih (fun k hk => hl k (List.mem_cons_of_mem _ hk)) _ _ (column_length fins i) _
    | some e =>
      exact ⟨_, voteLoop_cons_fail fins hne i rest out bs c e hi hbs hw⟩

theorem range_split (k L : Nat) (h : k < L) :
    ∃ tail, List.range L = List.range k ++ k :: tail := by
  obtain ⟨m, rfl⟩ : ∃ m, L = k + (m + 1) := ⟨L - k - 1, by omega⟩
  rw [List.range_add, List.range_succ_eq_map]
  exact ⟨List.map (fun x => k + x) (List.map Nat.succ (List.range m)), by simp⟩

theorem decidedBytes_length (fins : List (List Nat)) (l : List Nat) :
    (decidedBytes fins l).length = l.length := by
  simp [decidedBytes]

/-- The whole of `vote` when the writes of the offsets below `k` are taken and
the write of offset `k` is refused; the buffers need only reach offset `k`. -/
theorem vote_write_fails (out : Sink) (fins : List (List Nat)) (k e : Nat)
    (hne : fins ≠ []) (hk : ∀ f ∈ fins, k < f.length)
    (hok : ∀ t, t < k → out.writeErr (out.accepted.length + t) = none)
    (hfail : out.writeErr (out.accepted.length + k) = some e) :
    vote out fins =
      some ⟨{ out with accepted := out.accepted ++ decidedBytes fins (List.range k) },
        -1, some (VoteErr.sinkErr e)⟩ := by
  obtain ⟨f0, rest, rfl⟩ := List.exists_cons_of_ne_nil hne
  obtain ⟨tail, htail⟩ := range_split k f0.length (hk f0 (List.mem_cons_self _ _))
  rw [vote_cons, htail]
  obtain ⟨bs', hbs', heq⟩ := voteLoop_append (f0 :: rest) hne (List.range k) (k :: tail) out
    (List.replicate (f0 :: rest).length 0) 0
    (fun i hi f hf => lt_trans (List.mem_range.mp hi) (hk f hf))
    (by simp) (fun t ht => hok t (by simpa using ht))
  rw [heq]
  exact voteLoop_cons_fail (f0 :: rest) hne k tail _ bs' _ e hk hbs'
    (by simpa [decidedBytes_length] using hfail)

theorem column_map_take (fins : List (List Nat)) (n i : Nat) (h : i < n) :
    column (fins.map (List.take n)) i = column fins i := by
  simp [column, List.getElem?_take, h]

theorem column_eq_of_take_eq (fins fins' : List (List Nat)) (n i : Nat) (h : i < n)
    (heq : fins'.map (List.take n) = fins.map (List.take n)) :
    column fins' i = column fins i := by
  rw [← column_map_take fins' n i h, heq, column_map_take fins n i h]

theorem length_gt_of_take_eq (fins fins' : List (List Nat)) (k : Nat)
    (heq : fins'.map (List.take (k + 1)) = fins.map (List.take (k + 1)))
    (hk : ∀ f ∈ fins, k < f.length) : ∀ f' ∈ fins', k < f'.length := by
  intro f' hf'
  have hmem : List.take (k + 1) f' ∈ fins.map (List.take (k + 1)) := by
    rw [← heq]; exact List.mem_map_of_mem _ hf'
  obtain ⟨f, hf, hft⟩ := List.mem_map.mp hmem
  have hlen := congrArg List.length hft
  have := hk f hf
  simp only [List.length_take] at hlen
  omega

theorem decidedBytes_eq_of_take_eq (fins fins' : List (List Nat)) (k : Nat)
    (heq : fins'.map (List.take (k + 1)) = fins.map (List.take (k + 1))) :
    decidedBytes fins' (List.range k) = decidedBytes fins (List.range k) := by
  unfold decidedBytes
  apply List.map_congr_left
  intro i hi
  rw [column_eq_of_take_eq fins fins' (k + 1) i
    (Nat.lt_succ_of_lt (List.mem_range.mp hi)) heq]

theorem decidedBytes_range_eq_take (fins : List (List Nat)) (k L : Nat) (h : k ≤ L) :
    decidedBytes fins (List.range k) =
      (((List.range L).map (fun i => voteByteD (column fins i))).take k).map Prod.fst := by
  rw [← List.map_take, List.take_range, Nat.min_eq_left h]
  simp [decidedBytes, List.map_map, Function.comp_def]

/-! ## `voteByte`: the decided byte and the count -/

/-- C1: on a non-empty column `voteByte` returns, and for every bit position
`k` in 0..7 bit `k` of the returned byte is set exactly when the number of
bytes with bit `k` set is strictly greater than `N / 2`; a tie on an even `N`
gives bit 0.  The same holds for the bitwise pass taken alone, so it holds
whichever path `voteByte` takes. -/
theorem voteByte_bit_iff_majority (bt : List Nat) (hne : bt ≠ []) :
    ∃ b c, voteByte bt = some (b, c) ∧
      (∀ k, k < 8 → (b.testBit k = true ↔ bt.length / 2 < ones bt k)) ∧
      (∀ k, k < 8 → bt.length % 2 = 0 → ones bt k = bt.length / 2 →
        b.testBit k = false) ∧
      (fastCheck bt = some true → bt[0]? = some b) ∧
      (fastCheck bt = some false → b = (bitwiseVote bt).1) ∧
      (∀ k, k < 8 →
        ((bitwiseVote bt).1.testBit k = true ↔ bt.length / 2 < ones bt k)) := by
  obtain ⟨b, c, hv, hb, _⟩ := voteByte_spec bt hne
  refine ⟨b, c, hv, ?_, ?_, ?_, ?_, ?_⟩
  · intro k hk
    rw [hb k hk]; simp [majority]
  · intro k hk _ hhalf
    rw [hb k hk]; simp [majority, hhalf]
  · intro hf
    unfold voteByte at hv
    rw [hf] at hv
    cases h0 : bt[0]? with
    | none => simp [h0] at hv
    | some x => simp [h0] at hv; rw [hv.1]
  · intro hf
    unfold voteByte at hv
    rw [hf] at hv
    simp at hv
    rw [hv]
  · intro k hk
    rw [bitwiseVote_testBit bt hk]; simp [majority]

theorem voteByte_bit_iff_majority_witness :
    [0x80, 0x80, 0x00] ≠ ([] : List Nat) ∧
    ∃ b c, voteByte [0x80, 0x80, 0x00] = some (b, c) ∧
      (∀ k, k < 8 → (b.testBit k = true ↔
        [0x80, 0x80, 0x00].length / 2 < ones [0x80, 0x80, 0x00] k)) ∧
      (∀ k, k < 8 → [0x80, 0x80, 0x00].length % 2 = 0 →
        ones [0x80, 0x80, 0x00] k = [0x80, 0x80, 0x00].length / 2 →
        b.testBit k = false) ∧
      (fastCheck [0x80, 0x80, 0x00] = some true → [0x80, 0x80, 0x00][0]? = some b) ∧
      (fastCheck [0x80, 0x80, 0x00] = some false →
        b = (bitwiseVote [0x80, 0x80, 0x00]).1) ∧
      (∀ k, k < 8 → ((bitwiseVote [0x80, 0x80, 0x00]).1.testBit k = true ↔
        [0x80, 0x80, 0x00].length / 2 < ones [0x80, 0x80, 0x00] k)) :=
  ⟨by decide, voteByte_bit_iff_majority [0x80, 0x80, 0x00] (by decide)⟩

/-- C2: on a non-empty column the count returned by `voteByte` is the number
of bit positions `k` in 0..7 whose set-count is neither 0 nor `N`, and lies in
`[0, 8]`; and `voteByte [0b10000000, 0b10000000, 0b00000000]` is
`(0b10000000, 1)`. -/
theorem voteByte_count_nonUnanimous :
    (∀ bt : List Nat, bt ≠ [] →
      ∃ b c, voteByte bt = some (b, c) ∧
        c = (((List.range 8).filter
              (fun k => decide (ones bt k ≠ 0 ∧ ones bt k ≠ bt.length))).length : Int) ∧
        0 ≤ c ∧ c ≤ 8) ∧
    voteByte [0b10000000, 0b10000000, 0b00000000] = some (0b10000000, 1) := by
  refine ⟨?_, by decide⟩
  intro bt hne
  obtain ⟨b, c, hv, _, hc⟩ := voteByte_spec bt hne
  have hfun : (fun k => decide (ones bt k ≠ 0 ∧ ones bt k ≠ bt.length)) = nonUnanimous bt := by
    funext k
    unfold nonUnanimous
    rw [Bool.eq_iff_iff]
    simp
  have hlen : ((List.range 8).filter (nonUnanimous bt)).length ≤ 8 := by
    have := List.length_filter_le (nonUnanimous bt) (List.range 8)
    simpa using this
  refine ⟨b, c, hv, ?_, ?_, ?_⟩
  · rw [hfun]; exact hc
  · rw [hc]; exact Int.ofNat_nonneg _
  · rw [hc]; exact_mod_cast hlen

theorem voteByte_count_nonUnanimous_witness :
    [0xF0, 0x0F, 0xFF] ≠ ([] : List Nat) ∧
    ∃ b c, voteByte [0xF0, 0x0F, 0xFF] = some (b, c) ∧
      c = (((List.range 8).filter
            (fun k => decide (ones [0xF0, 0x0F, 0xFF] k ≠ 0 ∧
              ones [0xF0, 0x0F, 0xFF] k ≠ [0xF0, 0x0F, 0xFF].length))).length : Int) ∧
      0 ≤ c ∧ c ≤ 8 :=
  ⟨by decide, voteByte_count_nonUnanimous.1 [0xF0, 0x0F, 0xFF] (by decide)⟩

/-- C3: for every `N ≥ 1` and every byte `x`, `voteByte` on `N` copies of `x`
returns `(x, 0)`; with `N = 1` the single byte comes back with 0
corrections. -/
theorem voteByte_replicate (N x : Nat) (hN : 1 ≤ N) :
    voteByte (List.replicate N x) = some (x, 0) ∧ voteByte [x] = some (x, 0) := by
  obtain ⟨M, rfl⟩ : ∃ M, N = M + 1 := ⟨N - 1, by omega⟩
  exact ⟨voteByte_replicate_succ M x, voteByte_replicate_succ 0 x⟩

theorem voteByte_replicate_witness :
    1 ≤ 4 ∧ voteByte (List.replicate 4 0xA5) = some (0xA5, 0) ∧
      voteByte [0xA5] = some (0xA5, 0) :=
  ⟨by decide, voteByte_replicate 4 0xA5 (by decide)⟩

/-- C7: for an even `N ≥ 2`, a column of `N` bytes and a bit position `k` in
0..7 that exactly `N / 2` of the bytes have set, `voteByte` returns a byte with
bit `k` clear, and `k` is one of the positions the returned count counts; and
`voteByte [0xFF, 0x00]` is `(0x00, 8)`. -/
theorem voteByte_tie :
    (∀ (bt : List Nat) (k : Nat), 2 ≤ bt.length → bt.length % 2 = 0 → k < 8 →
      ones bt k = bt.length / 2 →
      ∃ b c, voteByte bt = some (b, c) ∧ b.testBit k = false ∧
        k ∈ (List.range 8).filter (nonUnanimous bt) ∧
        c = (((List.range 8).filter (nonUnanimous bt)).length : Int) ∧ 1 ≤ c) ∧
    voteByte [0xFF, 0x00] = some (0x00, 8) := by
  refine ⟨?_, by decide⟩
  intro bt k hN _ hk hhalf
  have hne : bt ≠ [] := by
    intro h; rw [h] at hN; simp at hN
  obtain ⟨b, c, hv, hb, hc⟩ := voteByte_spec bt hne
  have hmem : k ∈ (List.range 8).filter (nonUnanimous bt) := by
    rw [List.mem_filter]
    refine ⟨List.mem_range.mpr hk, ?_⟩
    unfold nonUnanimous
    simp only [Bool.and_eq_true, bne_iff_ne, ne_eq]
    omega
  refine ⟨b, c, hv, ?_, hmem, hc, ?_⟩
  · rw [hb k hk]; simp [majority, hhalf]
  · rw [hc]
    have := List.length_pos_of_mem hmem
    exact_mod_cast this

theorem voteByte_tie_witness :
    2 ≤ [0x0F, 0x03, 0x05, 0x08].length ∧ [0x0F, 0x03, 0x05, 0x08].length % 2 = 0 ∧
    1 < 8 ∧ ones [0x0F, 0x03, 0x05, 0x08] 1 = [0x0F, 0x03, 0x05, 0x08].length / 2 ∧
    ∃ b c, voteByte [0x0F, 0x03, 0x05, 0x08] = some (b, c) ∧ b.testBit 1 = false ∧
      1 ∈ (List.range 8).filter (nonUnanimous [0x0F, 0x03, 0x05, 0x08]) ∧
      c = (((List.range 8).filter (nonUnanimous [0x0F, 0x03, 0x05, 0x08])).length : Int) ∧
      1 ≤ c :=
  ⟨by decide, by decide, by decide, by decide,
    voteByte_tie.1 [0x0F, 0x03, 0x05, 0x08] 1 (by decide) (by decide) (by decide)
      (by decide)⟩

/-! ## `vote`: the bytes written and the total -/

/-- C4: for a non-empty list `fins` of buffers of one length `L` and a sink
that accepts every write, `vote` returns a nil error, appends to the sink
exactly `L` bytes, the `i`-th being the byte `voteByte` decides on the column
`[fins[0][i], ..., fins[N-1][i]]`, and returns the sum of the `L` per-column
counts.  On `A = [1,2,3,4]`, `B = [1,2,3,4]`, `C = [1,2,3,5]` it writes
`[1,2,3,4]` and returns 1. -/
theorem vote_columns :
    (∀ (out : Sink) (fins : List (List Nat)) (L : Nat), fins ≠ [] →
      (∀ f ∈ fins, f.length = L) → out.AcceptsAll →
      ∃ (res : List (Nat × Int)) (r : VoteResult),
        res.length = L ∧
        (∀ i, i < L → voteByte (column fins i) = res[i]?) ∧
        vote out fins = some r ∧ r.err = none ∧
        r.out.accepted = out.accepted ++ res.map Prod.fst ∧
        r.n = (res.map Prod.snd).sum) ∧
    (vote (okSink []) [[0x01, 0x02, 0x03, 0x04], [0x01, 0x02, 0x03, 0x04],
        [0x01, 0x02, 0x03, 0x05]]).map (fun r => (r.out.accepted, r.n, r.err)) =
      some ([0x01, 0x02, 0x03, 0x04], 1, none) := by
  refine ⟨?_, by decide⟩
  intro out fins L hne hlen hacc
  refine ⟨(List.range L).map (fun i => voteByteD (column fins i)), _, ?_, ?_,
    vote_acceptsAll out fins L hne hlen hacc, rfl, ?_, ?_⟩
  · simp
  · intro i hi
    rw [voteByte_eq_voteByteD _ (column_ne_nil fins i hne)]
    simp [List.getElem?_range hi]
  · simp [decidedBytes, List.map_map, Function.comp_def]
  · simp [correctedSum, List.map_map, Function.comp_def]

theorem vote_columns_witness :
    [[7, 7], [7, 6], [5, 7]] ≠ ([] : List (List Nat)) ∧
    (∀ f ∈ [[7, 7], [7, 6], [5, 7]], f.length = 2) ∧ (okSink [9]).AcceptsAll ∧
    ∃ (res : List (Nat × Int)) (r : VoteResult),
      res.length = 2 ∧
      (∀ i, i < 2 → voteByte (column [[7, 7], [7, 6], [5, 7]] i) = res[i]?) ∧
      vote (okSink [9]) [[7, 7], [7, 6], [5, 7]] = some r ∧ r.err = none ∧
      r.out.accepted = (okSink [9]).accepted ++ res.map Prod.fst ∧
      r.n = (res.map Prod.snd).sum :=
  ⟨by decide, by decide, ⟨fun _ => rfl, rfl⟩,
    vote_columns.1 (okSink [9]) [[7, 7], [7, 6], [5, 7]] 2 (by decide) (by decide)
      ⟨fun _ => rfl, rfl⟩⟩

/-- C6: for every `N ≥ 1` and every buffer `B`, `vote` on `N` buffers equal to
`B`, with a sink that accepts every write, writes exactly `B` and returns the
total 0 with a nil error; so voting `N` copies of what a vote wrote writes it
again unchanged. -/
theorem vote_idempotent (out : Sink) (N : Nat) (B : List Nat) (hN : 1 ≤ N)
    (hacc : out.AcceptsAll) :
    (∃ r, vote out (List.replicate N B) = some r ∧
      r.out.accepted = out.accepted ++ B ∧ r.n = 0 ∧ r.err = none) ∧
    (∀ (fins : List (List Nat)) (r0 : VoteResult), vote (okSink []) fins = some r0 →
      ∃ r, vote out (List.replicate N r0.out.accepted) = some r ∧
        r.out.accepted = out.accepted ++ r0.out.accepted ∧ r.n = 0 ∧ r.err = none) := by
  obtain ⟨M, rfl⟩ : ∃ M, N = M + 1 := ⟨N - 1, by omega⟩
  exact ⟨⟨_, vote_replicate_succ out M B hacc, rfl, rfl, rfl⟩,
    fun _ r0 _ => ⟨_, vote_replicate_succ out M r0.out.accepted hacc, rfl, rfl, rfl⟩⟩

theorem vote_idempotent_witness :
    1 ≤ 3 ∧ (okSink []).AcceptsAll ∧
    (∃ r, vote (okSink []) (List.replicate 3 [0xDE, 0xAD]) = some r ∧
      r.out.accepted = (okSink []).accepted ++ [0xDE, 0xAD] ∧ r.n = 0 ∧ r.err = none) ∧
    (∀ (fins : List (List Nat)) (r0 : VoteResult), vote (okSink []) fins = some r0 →
      ∃ r, vote (okSink []) (List.replicate 3 r0.out.accepted) = some r ∧
        r.out.accepted = (okSink []).accepted ++ r0.out.accepted ∧ r.n = 0 ∧
        r.err = none) :=
  ⟨by decide, ⟨fun _ => rfl, rfl⟩,
    vote_idempotent (okSink []) 3 [0xDE, 0xAD] (by decide) ⟨fun _ => rfl, rfl⟩⟩

/-! ## `vote`: errors -/

/-- C5: `vote` on the empty list returns the error "Invalid vote set" with
count -1 and leaves the sink as it was, whatever the sink would do with a
write; `vote` returns that error only for the empty list; and for a non-empty
list and a sink that never fails no error is returned: a returning call has a
nil error, and on buffers of one length the call does return. -/
theorem vote_invalid_set_iff :
    (∀ out : Sink, vote out [] = some ⟨out, -1, some VoteErr.invalidVoteSet⟩) ∧
    (∀ (out : Sink) (fins : List (List Nat)) (r : VoteResult), vote out fins = some r →
      r.err = some VoteErr.invalidVoteSet → fins = []) ∧
    (∀ (out : Sink) (fins : List (List Nat)) (r : VoteResult), fins ≠ [] →
      out.AcceptsAll → vote out fins = some r → r.err = none) ∧
    (∀ (out : Sink) (fins : List (List Nat)) (L : Nat), fins ≠ [] →
      (∀ f ∈ fins, f.length = L) → out.AcceptsAll →
      ∃ r, vote out fins = some r ∧ r.err = none) := by
  refine ⟨fun out => by simp [vote], ?_, ?_, ?_⟩
  · intro out fins r hv herr
    cases fins with
    | nil => rfl
    | cons f0 rest =>
      rw [vote_cons] at hv
      exact absurd herr (voteLoop_err_ne_invalid _ _ _ _ _ _ hv)
  · intro out fins r hne hacc hv
    obtain ⟨f0, rest, rfl⟩ := List.exists_cons_of_ne_nil hne
    rw [vote_cons] at hv
    exact voteLoop_err_none _ _ _ _ _ _ hacc hv
  · intro out fins L hne hlen hacc
    exact ⟨_, vote_acceptsAll out fins L hne hlen hacc, rfl⟩

theorem vote_invalid_set_iff_witness :
    vote (failingSink 0 28) [] = some ⟨failingSink 0 28, -1, some VoteErr.invalidVoteSet⟩ ∧
    ([[1, 2], [1, 3], [1, 2]] ≠ ([] : List (List Nat)) ∧
      (∀ f ∈ [[1, 2], [1, 3], [1, 2]], f.length = 2) ∧ (okSink []).AcceptsAll ∧
      ∃ r, vote (okSink []) [[1, 2], [1, 3], [1, 2]] = some r ∧ r.err = none) :=
  ⟨vote_invalid_set_iff.1 (failingSink 0 28),
    by decide, by decide, ⟨fun _ => rfl, rfl⟩,
    vote_invalid_set_iff.2.2.2 (okSink []) [[1, 2], [1, 3], [1, 2]] 2 (by decide)
      (by decide) ⟨fun _ => rfl, rfl⟩⟩

/-- C9: on a non-empty list of buffers of one length `L`, when the sink takes
the writes of the offsets below `k` and refuses the write of offset `k < L`
with error `e`, `vote` returns `e` with count -1; the sink then holds what it
held before followed by the decided bytes of the offsets `0 .. k-1`, the first
`k` bytes of the full decided output `res`; and no offset above `k` is looked
at: any input that agrees with `fins` up to offset `k` gives the same run,
whatever it holds, or lacks, above `k`. -/
theorem vote_write_error (out : Sink) (fins : List (List Nat)) (L k e : Nat)
    (hne : fins ≠ []) (hlen : ∀ f ∈ fins, f.length = L) (hk : k < L)
    (hok : ∀ t, t < k → out.writeErr (out.accepted.length + t) = none)
    (hfail : out.writeErr (out.accepted.length + k) = some e) :
    ∃ (res : List (Nat × Int)) (r : VoteResult),
      res.length = L ∧
      (∀ i, i < L → voteByte (column fins i) = res[i]?) ∧
      vote out fins = some r ∧
      r.err = some (VoteErr.sinkErr e) ∧ r.n = -1 ∧
      r.out.accepted = out.accepted ++ (res.take k).map Prod.fst ∧
      r.out.accepted.length = out.accepted.length + k ∧
      (∀ fins' : List (List Nat),
        fins'.map (List.take (k + 1)) = fins.map (List.take (k + 1)) →
        vote out fins' = some r) := by
  have hkf : ∀ f ∈ fins, k < f.length := fun f hf => by rw [hlen f hf]; exact hk
  refine ⟨(List.range L).map (fun i => voteByteD (column fins i)), _, ?_, ?_,
    vote_write_fails out fins k e hne hkf hok hfail, rfl, rfl, ?_, ?_, ?_⟩
  · simp
  · intro i hi
    rw [voteByte_eq_voteByteD _ (column_ne_nil fins i hne)]
    simp [List.getElem?_range hi]
  · show out.accepted ++ decidedBytes fins (List.range k) = _
    rw [decidedBytes_range_eq_take fins k L (Nat.le_of_lt hk)]
  · show (out.accepted ++ decidedBytes fins (List.range k)).length = _
    simp [decidedBytes_length]
  · intro fins' heq
    have hne' : fins' ≠ [] := by
      intro h
      rw [h] at heq
      exact hne (List.map_eq_nil_iff.mp heq.symm)
    rw [vote_write_fails out fins' k e hne' (length_gt_of_take_eq fins fins' k heq hkf)
      hok hfail, decidedBytes_eq_of_take_eq fins fins' k heq]

theorem vote_write_error_witness :
    [[1, 2, 3], [1, 6, 3], [1, 2, 7]] ≠ ([] : List (List Nat)) ∧
    (∀ f ∈ [[1, 2, 3], [1, 6, 3], [1, 2, 7]], f.length = 3) ∧ 2 < 3 ∧
    (∀ t, t < 2 → (failingSink 2 28).writeErr ((failingSink 2 28).accepted.length + t) = none) ∧
    (failingSink 2 28).writeErr ((failingSink 2 28).accepted.length + 2) = some 28 ∧
    ∃ (res : List (Nat × Int)) (r : VoteResult),
      res.length = 3 ∧
      (∀ i, i < 3 → voteByte (column [[1, 2, 3], [1, 6, 3], [1, 2, 7]] i) = res[i]?) ∧
      vote (failingSink 2 28) [[1, 2, 3], [1, 6, 3], [1, 2, 7]] = some r ∧
      r.err = some (VoteErr.sinkErr 28) ∧ r.n = -1 ∧
      r.out.accepted = (failingSink 2 28).accepted ++ (res.take 2).map Prod.fst ∧
      r.out.accepted.length = (failingSink 2 28).accepted.length + 2 ∧
      (∀ fins' : List (List Nat),
        fins'.map (List.take (2 + 1)) =
          [[1, 2, 3], [1, 6, 3], [1, 2, 7]].map (List.take (2 + 1)) →
        vote (failingSink 2 28) fins' = some r) :=
  ⟨by decide, by decide, by decide,
    fun t ht => by simp [failingSink]; omega, by simp [failingSink],
    vote_write_error (failingSink 2 28) [[1, 2, 3], [1, 6, 3], [1, 2, 7]] 3 2 28
      (by decide) (by decide) (by decide)
      (fun t ht => by simp [failingSink]; omega) (by simp [failingSink])⟩

/-- C10: on a non-empty column the reads `b[0]` of `fastCheck` and `bt[0]` of
`voteByte` are in range and both functions return; on a non-empty list of
buffers of one length `L`, whatever the sink does, `vote` returns: every
`fins[j][i]` and `byteSet[j]` is in range, the column buffer holds the column of
the offset when `voteByte` is called, and that column is not empty.  The empty
column is the input on which `fastCheck` and `voteByte` panic. -/
theorem vote_no_panic :
    (∀ bt : List Nat, bt ≠ [] →
      (∃ x, bt[0]? = some x) ∧ (∃ v, fastCheck bt = some v) ∧
      (∃ p, voteByte bt = some p)) ∧
    (∀ (out : Sink) (fins : List (List Nat)) (L : Nat), fins ≠ [] →
      (∀ f ∈ fins, f.length = L) →
      (∃ r, vote out fins = some r) ∧
      (∀ i, i < L → ∀ bs : List Nat, bs.length = fins.length →
        fillColumn i fins 0 bs = some (column fins i)) ∧
      (∀ i, column fins i ≠ [] ∧ ∃ p, voteByte (column fins i) = some p)) ∧
    fastCheck [] = none ∧ voteByte [] = none := by
  refine ⟨?_, ?_, rfl, rfl⟩
  · intro bt hne
    obtain ⟨x, rest, rfl⟩ := List.exists_cons_of_ne_nil hne
    exact ⟨⟨x, by simp⟩, ⟨fastCheckLoop x (x :: rest), by simp [fastCheck]⟩,
      ⟨_, voteByte_cons x rest⟩⟩
  · intro out fins L hne hlen
    refine ⟨?_, ?_, ?_⟩
    · obtain ⟨f0, rest, rfl⟩ := List.exists_cons_of_ne_nil hne
      rw [vote_cons]
      exact voteLoop_returns _ hne _
        (fun i hi f hf => by
          rw [hlen f hf, ← hlen f0 (List.mem_cons_self _ _)]
          exact List.mem_range.mp hi)
        out _ (by simp) 0
    · intro i hi bs hbs
      exact fillColumn_zero i fins (fun f hf => by rw [hlen f hf]; exact hi) bs hbs
    · intro i
      exact ⟨column_ne_nil fins i hne,
        _, voteByte_eq_voteByteD _ (column_ne_nil fins i hne)⟩

theorem vote_no_panic_witness :
    ([3, 9] ≠ ([] : List Nat) ∧
      (∃ x, [3, 9][0]? = some x) ∧ (∃ v, fastCheck [3, 9] = some v) ∧
      (∃ p, voteByte [3, 9] = some p)) ∧
    ([[1, 2], [3, 4], [5, 6]] ≠ ([] : List (List Nat)) ∧
      (∀ f ∈ [[1, 2], [3, 4], [5, 6]], f.length = 2) ∧
      (∃ r, vote (failingSink 1 5) [[1, 2], [3, 4], [5, 6]] = some r) ∧
      (∀ i, i < 2 → ∀ bs : List Nat, bs.length = [[1, 2], [3, 4], [5, 6]].length →
        fillColumn i [[1, 2], [3, 4], [5, 6]] 0 bs =
          some (column [[1, 2], [3, 4], [5, 6]] i)) ∧
      (∀ i, column [[1, 2], [3, 4], [5, 6]] i ≠ [] ∧
        ∃ p, voteByte (column [[1, 2], [3, 4], [5, 6]] i) = some p)) :=
  ⟨⟨by decide, vote_no_panic.1 [3, 9] (by decide)⟩,
    by decide, by decide,
    vote_no_panic.2.1 (failingSink 1 5) [[1, 2], [3, 4], [5, 6]] 2 (by decide) (by decide)⟩

/-- A buffer shorter than the first one makes `vote` panic on `fins[j][i]`. -/
theorem vote_ragged_panics : (vote (okSink []) [[1], []]).isNone = true := by decide

/-! ## The acquisition loop of `main` -/

/-- C8, at the input where the code departs from it: with an empty first file
followed by two files of one byte, `lastLen` is still 0 when the second file is
read, so it is set again; the loop runs to its end and `vote` is called with
buffers of lengths 0, 1 and 1.  `vote` then writes nothing and returns 0 with
a nil error. -/
theorem mainFins_empty_first_file :
    mainFins [some [], some [1], some [1]] = some [[], [1], [1]] ∧
    ([1] : List Nat).length ≠ ([] : List Nat).length ∧
    (vote (okSink []) [[], [1], [1]]).map (fun r => (r.out.accepted, r.n, r.err)) =
      some ([], 0, none) := by
  decide

/-! ## Bytes: the eight bits decide -/

theorem testBit_eq_false_of_byte {x k : Nat} (hx : x < 256) (hk : 8 ≤ k) :
    x.testBit k = false := by
  apply Nat.testBit_lt_two_pow
  calc x < 2 ^ 8 := hx
    _ ≤ 2 ^ k := Nat.pow_le_pow_right (by decide) hk

theorem byte_eq_of_testBit {x y : Nat} (hx : x < 256) (hy : y < 256)
    (h : ∀ k, k < 8 → x.testBit k = y.testBit k) : x = y := by
  apply Nat.eq_of_testBit_eq
  intro k
  by_cases hk : k < 8
  · exact h k hk
  · rw [testBit_eq_false_of_byte hx (by omega), testBit_eq_false_of_byte hy (by omega)]

theorem bitwiseVote_testBit_ge (bt : List Nat) {k : Nat} (hk : 8 ≤ k) :
    (bitwiseVote bt).1.testBit k = false := by
  unfold bitwiseVote
  rw [foldl_voteBit_testBit bt _ (fun i hi => List.mem_range.mp hi)]
  have : ¬ k < 8 := by omega
  simp [this]

theorem bitwiseVote_lt (bt : List Nat) : (bitwiseVote bt).1 < 256 := by
  by_contra hge
  have hle : 2 ^ 8 ≤ (bitwiseVote bt).1 := by simpa using hge
  obtain ⟨k, hk, hbit⟩ := Nat.ge_two_pow_implies_high_bit_true hle
  rw [bitwiseVote_testBit_ge bt hk] at hbit
  exact Bool.false_ne_true hbit

/-- The bitwise pass on a non-empty column of copies of one byte gives that
byte and the count 0. -/
theorem bitwiseVote_of_all_eq (x : Nat) (bt : List Nat) (hne : bt ≠ []) (hx : x < 256)
    (hall : ∀ y ∈ bt, y = x) : bitwiseVote bt = (x, 0) := by
  have h1 : (bitwiseVote bt).1 = x := by
    apply byte_eq_of_testBit (bitwiseVote_lt bt) hx
    intro k hk
    rw [bitwiseVote_testBit bt hk]
    unfold majority
    rw [ones_of_all_eq x bt hall k]
    have hpos : 0 < bt.length := List.length_pos.mpr hne
    cases hb : x.testBit k <;> simp
    omega
  have h2 : (bitwiseVote bt).2 = 0 := by
    rw [bitwiseVote_snd]
    have : (List.range 8).filter (nonUnanimous bt) = [] := by
      rw [List.filter_eq_nil_iff]
      intro k _
      unfold nonUnanimous
      rw [ones_of_all_eq x bt hall k]
      cases hb : x.testBit k <;> simp
    rw [this]; rfl
  exact Prod.ext h1 h2

/-- On a non-empty column of bytes `voteByte` returns what the bitwise pass
returns. -/
theorem voteByte_eq_bitwiseVote (bt : List Nat) (hne : bt ≠ [])
    (hb : ∀ b ∈ bt, b < 256) : voteByte bt = some (bitwiseVote bt) := by
  obtain ⟨x, rest, rfl⟩ := List.exists_cons_of_ne_nil hne
  rw [voteByte_cons]
  by_cases hf : fastCheckLoop x (x :: rest) = true
  · rw [if_pos hf, bitwiseVote_of_all_eq x (x :: rest) hne
      (hb x (List.mem_cons_self _ _)) ((fastCheckLoop_eq_true x _).mp hf)]
  · rw [if_neg hf]

/-! ## `voteByte`: the shortcut against the bitwise pass -/

/-- C11: the shortcut of `voteByte` is an optimisation only: on every non-empty
column of bytes `voteByte` returns the pair that the loop over the eight bit
positions, run without the `fastCheck` shortcut, returns. -/
theorem voteByte_refines_bitwiseVote (bt : List Nat) (hne : bt ≠ [])
    (hb : ∀ b ∈ bt, b < 256) :
    voteByte bt = some (bitwiseVote bt) ∧
    (fastCheck bt = some true → bt[0]? = some (bitwiseVote bt).1 ∧ (bitwiseVote bt).2 = 0) := by
  have hv := voteByte_eq_bitwiseVote bt hne hb
  refine ⟨hv, ?_⟩
  intro hf
  unfold voteByte at hv
  rw [hf] at hv
  cases h0 : bt[0]? with
  | none => simp [h0] at hv
  | some x =>
    simp only [h0, Option.some.injEq] at hv
    rw [← hv]
    exact ⟨rfl, rfl⟩

theorem voteByte_refines_bitwiseVote_witness :
    [0x5A, 0x5A, 0x5A] ≠ ([] : List Nat) ∧ (∀ b ∈ [0x5A, 0x5A, 0x5A], b < 256) ∧
    voteByte [0x5A, 0x5A, 0x5A] = some (bitwiseVote [0x5A, 0x5A, 0x5A]) ∧
    (fastCheck [0x5A, 0x5A, 0x5A] = some true →
      [0x5A, 0x5A, 0x5A][0]? = some (bitwiseVote [0x5A, 0x5A, 0x5A]).1 ∧
      (bitwiseVote [0x5A, 0x5A, 0x5A]).2 = 0) :=
  ⟨by decide, by decide,
    voteByte_refines_bitwiseVote [0x5A, 0x5A, 0x5A] (by decide) (by decide)⟩

/-! ## The order of the inputs -/

theorem ones_perm {bt bt' : List Nat} (h : bt.Perm bt') (k : Nat) :
    ones bt' k = ones bt k := by
  unfold ones
  exact (h.filter _).length_eq.symm

/-- The bitwise pass looks at a column only through its length and its
set-counts. -/
theorem bitwiseVote_congr (bt bt' : List Nat) (hlen : bt'.length = bt.length)
    (hones : ∀ k, ones bt' k = ones bt k) : bitwiseVote bt' = bitwiseVote bt := by
  have hstep : ∀ (l : List Nat), (∀ i ∈ l, i < 8) → ∀ st : Nat × Int,
      l.foldl (voteBit bt') st = l.foldl (voteBit bt) st := by
    intro l
    induction l with
    | nil => intro _ _; rfl
    | cons i rest ih =>
      intro hl st
      have hi : i < 8 := hl i (List.mem_cons_self _ _)
      rw [List.foldl_cons, List.foldl_cons, voteBit_eq hi bt', voteBit_eq hi bt]
      have hm : majority bt' i = majority bt i := by
        unfold majority; rw [hlen, hones]
      have hn : nonUnanimous bt' i = nonUnanimous bt i := by
        unfold nonUnanimous; rw [hlen, hones]
      rw [hm, hn]
      exact ih (fun j hj => hl j (List.mem_cons_of_mem _ hj)) _
  exact hstep _ (fun i hi => List.mem_range.mp hi) _

theorem voteByte_perm {bt bt' : List Nat} (h : bt.Perm bt') :
    voteByte bt' = voteByte bt := by
  cases bt with
  | nil => rw [List.Perm.nil_eq h]
  | cons x rest =>
    cases bt' with
    | nil => exact absurd h.symm.nil_eq (by simp)
    | cons y rest' =>
      rw [voteByte_cons, voteByte_cons]
      by_cases hf : fastCheckLoop x (x :: rest) = true
      · have hall := (fastCheckLoop_eq_true x _).mp hf
        have hall' : ∀ z ∈ y :: rest', z = x := fun z hz => hall z (h.mem_iff.mpr hz)
        have hy : y = x := hall' y (List.mem_cons_self _ _)
        subst hy
        rw [if_pos hf, if_pos ((fastCheckLoop_eq_true y _).mpr hall')]
      · have hf' : ¬ fastCheckLoop y (y :: rest') = true := by
          intro hc
          have hall' := (fastCheckLoop_eq_true y _).mp hc
          have hall : ∀ z ∈ x :: rest, z = y := fun z hz => hall' z (h.mem_iff.mp hz)
          have hx : x = y := hall x (List.mem_cons_self _ _)
          subst hx
          exact hf ((fastCheckLoop_eq_true x _).mpr hall)
        rw [if_neg hf, if_neg hf',
          bitwiseVote_congr (x :: rest) (y :: rest') h.length_eq.symm
            (fun k => ones_perm h k)]

/-- The loop over the offsets looks at the input set only through what
`voteByte` returns on its columns. -/
theorem voteLoop_congr (fins fins' : List (List Nat)) (hne : fins ≠ []) (hne' : fins' ≠ [])
    (l : List Nat) (hl : ∀ i ∈ l, ∀ f ∈ fins, i < f.length)
    (hl' : ∀ i ∈ l, ∀ f ∈ fins', i < f.length)
    (hcol : ∀ i ∈ l, voteByteD (column fins' i) = voteByteD (column fins i))
    (out : Sink) (bs bs' : List Nat) (hbs : bs.length = fins.length)
    (hbs' : bs'.length = fins'.length) (c : Int) :
    voteLoop fins' l out bs' c = voteLoop fins l out bs c := by
  induction l generalizing out bs bs' c with
  | nil => rw [voteLoop, voteLoop]
  | cons i rest ih =>
    have hi := hl i (List.mem_cons_self _ _)
    have hi' := hl' i (List.mem_cons_self _ _)
    cases hw : out.writeErr out.accepted.length with
    | none =>
      rw [voteLoop_cons_ok fins hne i rest out bs c hi hbs hw,
        voteLoop_cons_ok fins' hne' i rest out bs' c hi' hbs' hw,
        hcol i (List.mem_cons_self _ _)]
      exact ih (fun k hk => hl k (List.mem_cons_of_mem _ hk))
        (fun k hk => hl' k (List.mem_cons_of_mem _ hk))
        (fun k hk => hcol k (List.mem_cons_of_mem _ hk)) _ _ _
        (column_length fins i) (column_length fins' i) _
    | some e =>
      rw [voteLoop_cons_fail fins hne i rest out bs c e hi hbs hw,
        voteLoop_cons_fail fins' hne' i rest out bs' c e hi' hbs' hw]

theorem vote_returns (out : Sink) (fins : List (List Nat)) (L : Nat) (hne : fins ≠ [])
    (hlen : ∀ f ∈ fins, f.length = L) : ∃ r, vote out fins = some r := by
  obtain ⟨f0, rest, rfl⟩ := List.exists_cons_of_ne_nil hne
  rw [vote_cons]
  exact voteLoop_returns _ hne _
    (fun i hi f hf => by
      rw [hlen f hf, ← hlen f0 (List.mem_cons_self _ _)]
      exact List.mem_range.mp hi)
    out _ (by simp) 0

theorem vote_perm (out : Sink) (fins fins' : List (List Nat)) (L : Nat) (hne : fins ≠ [])
    (hlen : ∀ f ∈ fins, f.length = L) (h : fins.Perm fins') :
    vote out fins' = vote out fins := by
  have hne' : fins' ≠ [] := fun hc => hne (by rw [hc] at h; exact h.eq_nil)
  have hlen' : ∀ f ∈ fins', f.length = L := fun f hf => hlen f (h.mem_iff.mpr hf)
  obtain ⟨f0, rest, rfl⟩ := List.exists_cons_of_ne_nil hne
  obtain ⟨g0, rest', rfl⟩ := List.exists_cons_of_ne_nil hne'
  rw [vote_cons, vote_cons, hlen f0 (List.mem_cons_self _ _),
    hlen' g0 (List.mem_cons_self _ _)]
  exact voteLoop_congr _ _ hne hne' _
    (fun i hi f hf => by rw [hlen f hf]; exact List.mem_range.mp hi)
    (fun i hi f hf => by rw [hlen' f hf]; exact List.mem_range.mp hi)
    (fun i _ => by
      have hp : (column (f0 :: rest) i).Perm (column (g0 :: rest') i) := by
        unfold column
        exact h.map _
      unfold voteByteD
      rw [voteByte_perm hp])
    out _ _ (by simp) (by simp) 0

/-- C14: the vote does not depend on the order of the inputs: for a non-empty
column `bt` and a permutation `bt'` of it, `voteByte` returns the same byte and
the same count; hence, on a non-empty list of buffers of one length and for
every sink, `vote` on a reordering of the buffers makes the same run: the same
bytes written, the same total, the same error. -/
theorem voteByte_perm_invariant :
    (∀ bt bt' : List Nat, bt ≠ [] → bt.Perm bt' →
      voteByte bt' = voteByte bt ∧ ∃ p, voteByte bt = some p) ∧
    (∀ (out : Sink) (fins fins' : List (List Nat)) (L : Nat), fins ≠ [] →
      (∀ f ∈ fins, f.length = L) → fins.Perm fins' →
      vote out fins' = vote out fins ∧ ∃ r, vote out fins = some r) := by
  refine ⟨?_, ?_⟩
  · intro bt bt' hne h
    exact ⟨voteByte_perm h, _, voteByte_eq_voteByteD bt hne⟩
  · intro out fins fins' L hne hlen h
    exact ⟨vote_perm out fins fins' L hne hlen h, vote_returns out fins L hne hlen⟩

theorem voteByte_perm_invariant_witness :
    ([0x0F, 0xF0, 0x0F] ≠ ([] : List Nat) ∧
      [0x0F, 0xF0, 0x0F].Perm [0xF0, 0x0F, 0x0F] ∧
      voteByte [0xF0, 0x0F, 0x0F] = voteByte [0x0F, 0xF0, 0x0F] ∧
      ∃ p, voteByte [0x0F, 0xF0, 0x0F] = some p) ∧
    ([[1, 2], [3, 4], [1, 6]] ≠ ([] : List (List Nat)) ∧
      (∀ f ∈ [[1, 2], [3, 4], [1, 6]], f.length = 2) ∧
      [[1, 2], [3, 4], [1, 6]].Perm [[3, 4], [1, 2], [1, 6]] ∧
      vote (okSink []) [[3, 4], [1, 2], [1, 6]] = vote (okSink []) [[1, 2], [3, 4], [1, 6]] ∧
      ∃ r, vote (okSink []) [[1, 2], [3, 4], [1, 6]] = some r) :=
  ⟨⟨by decide, List.Perm.swap _ _ _,
      voteByte_perm_invariant.1 [0x0F, 0xF0, 0x0F] [0xF0, 0x0F, 0x0F] (by decide)
        (List.Perm.swap _ _ _)⟩,
    by decide, by decide, List.Perm.swap _ _ _,
    voteByte_perm_invariant.2 (okSink []) [[1, 2], [3, 4], [1, 6]]
      [[3, 4], [1, 2], [1, 6]] 2 (by decide) (by decide) (List.Perm.swap _ _ _)⟩

/-! ## The count against the shortcut -/

theorem ones_eq_zero_iff (bt : List Nat) (k : Nat) :
    ones bt k = 0 ↔ ∀ b ∈ bt, b.testBit k = false := by
  induction bt with
  | nil => simp [ones_nil]
  | cons b rest ih =>
    rw [ones_cons]
    cases hb : b.testBit k <;> simp [hb, ih]

theorem ones_eq_length_iff (bt : List Nat) (k : Nat) :
    ones bt k = bt.length ↔ ∀ b ∈ bt, b.testBit k = true := by
  induction bt with
  | nil => simp [ones_nil]
  | cons b rest ih =>
    have hle := ones_le rest k
    rw [ones_cons]
    cases hb : b.testBit k
    · simp [hb]; omega
    · simp [hb, ← ih]; omega

theorem exists_bit_ne {x y : Nat} (hx : x < 256) (hy : y < 256) (hne : x ≠ y) :
    ∃ k, k < 8 ∧ x.testBit k ≠ y.testBit k := by
  by_contra hc
  apply hne
  apply byte_eq_of_testBit hx hy
  intro k hk
  by_contra hk2
  exact hc ⟨k, hk, hk2⟩

theorem nonUnanimous_of_bit_ne (bt : List Nat) (x y k : Nat) (hx : x ∈ bt) (hy : y ∈ bt)
    (hne : x.testBit k ≠ y.testBit k) : nonUnanimous bt k = true := by
  unfold nonUnanimous
  simp only [Bool.and_eq_true, bne_iff_ne, ne_eq]
  constructor
  · intro h0
    have h := (ones_eq_zero_iff bt k).mp h0
    exact hne (by rw [h x hx, h y hy])
  · intro hl
    have h := (ones_eq_length_iff bt k).mp hl
    exact hne (by rw [h x hx, h y hy])

/-- On a column of bytes that are not all equal to the first, the bitwise pass
counts at least one bit position. -/
theorem bitwiseVote_snd_pos (x : Nat) (rest : List Nat) (hb : ∀ b ∈ x :: rest, b < 256)
    (hf : ¬ fastCheckLoop x (x :: rest) = true) : 1 ≤ (bitwiseVote (x :: rest)).2 := by
  have hex : ∃ y ∈ x :: rest, y ≠ x := by
    by_contra hc
    apply hf
    rw [fastCheckLoop_eq_true]
    intro y hy
    by_contra hyx
    exact hc ⟨y, hy, hyx⟩
  obtain ⟨y, hy, hyx⟩ := hex
  obtain ⟨k, hk, hbit⟩ := exists_bit_ne (hb y hy) (hb x (List.mem_cons_self _ _)) hyx
  have hmem : k ∈ (List.range 8).filter (nonUnanimous (x :: rest)) :=
    List.mem_filter.mpr ⟨List.mem_range.mpr hk,
      nonUnanimous_of_bit_ne _ y x k hy (List.mem_cons_self _ _) hbit⟩
  rw [bitwiseVote_snd]
  have := List.length_pos_of_mem hmem
  exact_mod_cast this

/-- C15: on a non-empty column of bytes the count returned by `voteByte` is 0
exactly when all the bytes are identical, that is when `fastCheck` is true;
when the bitwise path is taken the count is at least 1. -/
theorem voteByte_count_zero_iff (bt : List Nat) (hne : bt ≠ [])
    (hb : ∀ b ∈ bt, b < 256) :
    ∃ b c, voteByte bt = some (b, c) ∧
      (c = 0 ↔ ∀ y ∈ bt, ∀ z ∈ bt, y = z) ∧
      (c = 0 ↔ fastCheck bt = some true) ∧
      (fastCheck bt = some false → 1 ≤ c) := by
  obtain ⟨x, rest, rfl⟩ := List.exists_cons_of_ne_nil hne
  have hfc : fastCheck (x :: rest) = some (fastCheckLoop x (x :: rest)) := by
    simp [fastCheck]
  rw [voteByte_cons, hfc]
  by_cases hf : fastCheckLoop x (x :: rest) = true
  · have hall := (fastCheckLoop_eq_true x _).mp hf
    rw [if_pos hf, hf]
    refine ⟨x, 0, rfl, ?_, ?_, ?_⟩
    · exact ⟨fun _ y hy z hz => by rw [hall y hy, hall z hz], fun _ => rfl⟩
    · simp
    · intro h; simp at h
  · have hpos := bitwiseVote_snd_pos x rest hb hf
    have hff : fastCheckLoop x (x :: rest) = false := by simpa using hf
    rw [if_neg hf, hff]
    have hnz : ¬ (bitwiseVote (x :: rest)).2 = 0 := by
      intro h0
      rw [h0] at hpos
      exact absurd hpos (by decide)
    refine ⟨(bitwiseVote (x :: rest)).1, (bitwiseVote (x :: rest)).2, rfl, ?_, ?_,
      fun _ => hpos⟩
    · constructor
      · intro h0
        exact absurd h0 hnz
      · intro hall
        exact absurd ((fastCheckLoop_eq_true x _).mpr
          (fun y hy => hall y hy x (List.mem_cons_self _ _))) hf
    · constructor
      · intro h0
        exact absurd h0 hnz
      · intro h; simp at h

theorem voteByte_count_zero_iff_witness :
    [0x10, 0x10, 0x11] ≠ ([] : List Nat) ∧ (∀ b ∈ [0x10, 0x10, 0x11], b < 256) ∧
    ∃ b c, voteByte [0x10, 0x10, 0x11] = some (b, c) ∧
      (c = 0 ↔ ∀ y ∈ [0x10, 0x10, 0x11], ∀ z ∈ [0x10, 0x10, 0x11], y = z) ∧
      (c = 0 ↔ fastCheck [0x10, 0x10, 0x11] = some true) ∧
      (fastCheck [0x10, 0x10, 0x11] = some false → 1 ≤ c) :=
  ⟨by decide, by decide, voteByte_count_zero_iff [0x10, 0x10, 0x11] (by decide) (by decide)⟩

/-! ## The total against the size of the output -/

theorem voteByteD_snd_bounds (bt : List Nat) (hne : bt ≠ []) :
    0 ≤ (voteByteD bt).2 ∧ (voteByteD bt).2 ≤ 8 := by
  obtain ⟨b, c, hv, _, hc⟩ := voteByte_spec bt hne
  have hlen : ((List.range 8).filter (nonUnanimous bt)).length ≤ 8 := by
    have := List.length_filter_le (nonUnanimous bt) (List.range 8)
    simpa using this
  have hD : (voteByteD bt).2 = c := by simp [voteByteD, hv]
  rw [hD, hc]
  exact ⟨Int.ofNat_nonneg _, by exact_mod_cast hlen⟩

theorem correctedSum_bounds (fins : List (List Nat)) (hne : fins ≠ []) (l : List Nat) :
    0 ≤ correctedSum fins l ∧ correctedSum fins l ≤ 8 * (l.length : Int) := by
  induction l with
  | nil => simp [correctedSum]
  | cons i rest ih =>
    have hb := voteByteD_snd_bounds (column fins i) (column_ne_nil fins i hne)
    have hcons : correctedSum fins (i :: rest) =
        (voteByteD (column fins i)).2 + correctedSum fins rest := by
      simp [correctedSum]
    rw [hcons]
    simp only [List.length_cons]
    push_cast
    omega

/-! ## The total in an `int` of `w` bits -/

theorem wrapInt_neg_one (w : Nat) (hw : 0 < w) : wrapInt w (-1) = -1 := by
  obtain ⟨k, rfl⟩ : ∃ k, w = k + 1 := ⟨w - 1, by omega⟩
  unfold wrapInt
  simp only [Nat.add_sub_cancel]
  have hpos : (0 : Int) < 2 ^ k := by positivity
  rw [Int.emod_eq_of_lt (by omega) (by rw [pow_succ]; omega)]
  omega

/-- An integer in the range of the `int` of `w` bits is held as it is. -/
theorem wrapInt_of_range (w : Nat) (hw : 0 < w) (x : Int) (h1 : -(2 ^ (w - 1)) ≤ x)
    (h2 : x < 2 ^ (w - 1)) : wrapInt w x = x := by
  obtain ⟨k, rfl⟩ : ∃ k, w = k + 1 := ⟨w - 1, by omega⟩
  unfold wrapInt
  simp only [Nat.add_sub_cancel] at *
  rw [Int.emod_eq_of_lt (by omega) (by rw [pow_succ]; omega)]
  omega

theorem wrapInt_add_wrapInt (w : Nat) (a n : Int) :
    wrapInt w (wrapInt w a + n) = wrapInt w (a + n) := by
  unfold wrapInt
  congr 1
  have : (a + 2 ^ (w - 1)) % 2 ^ w - 2 ^ (w - 1) + n + 2 ^ (w - 1) =
      (a + 2 ^ (w - 1)) % 2 ^ w + n := by ring
  rw [this, Int.emod_add_emod]
  congr 1; ring

/-- The loop with the `int` of `w` bits makes the run of the loop with exact
integers, with the count brought into `w` bits. -/
theorem voteLoopW_eq (w : Nat) (hw : 0 < w) (fins : List (List Nat)) (l : List Nat)
    (out : Sink) (bs : List Nat) (c : Int) :
    voteLoopW w fins l out bs (wrapInt w c) =
      (voteLoop fins l out bs c).map (wrapResult w) := by
  induction l generalizing out bs c with
  | nil => simp [voteLoopW, voteLoop, wrapResult]
  | cons i rest ih =>
    rw [voteLoopW, voteLoop]
    cases hfill : fillColumn i fins 0 bs with
    | none => rfl
    | some bs' =>
      dsimp only
      cases hv : voteByte bs' with
      | none => rfl
      | some p =>
        obtain ⟨b, n⟩ := p
        dsimp only
        cases hwb : out.WriteByte b with
        | error e =>
          dsimp only
          simp [wrapResult, wrapInt_neg_one w hw]
        | ok out' =>
          dsimp only
          rw [wrapInt_add_wrapInt]
          exact ih out' bs' (c + n)

theorem wrapInt_zero (w : Nat) (hw : 0 < w) : wrapInt w 0 = 0 := by
  apply wrapInt_of_range w hw
  · have : (0 : Int) < 2 ^ (w - 1) := by positivity
    omega
  · positivity

/-- The function `vote` with the `int` of `w` bits makes the run of `vote` with
exact integers, with the count brought into `w` bits. -/
theorem voteW_eq (w : Nat) (hw : 0 < w) (out : Sink) (fins : List (List Nat)) :
    voteW w out fins = (vote out fins).map (wrapResult w) := by
  cases fins with
  | nil => simp [voteW, vote, wrapResult, wrapInt_neg_one w hw]
  | cons f0 rest =>
    have h := voteLoopW_eq w hw (f0 :: rest) (List.range f0.length) out
      (List.replicate (f0 :: rest).length 0) 0
    rw [wrapInt_zero w hw] at h
    rw [vote_cons, ← h]
    simp [voteW]

theorem getD_replicate_lt (L a i : Nat) (h : i < L) : (List.replicate L a).getD i 0 = a := by
  rw [List.getD_eq_getElem _ _ (by simpa using h)]
  exact List.getElem_replicate _ _

/-- Three buffers of `L` bytes `0x00`, `0xFF`, `0x00`: every column has all
eight bit positions not unanimous, so the exact total is `8 * L`. -/
theorem correctedSum_three (L : Nat) :
    correctedSum [List.replicate L 0x00, List.replicate L 0xFF, List.replicate L 0x00]
      (List.range L) = 8 * (L : Int) := by
  have hcol : ∀ i ∈ List.range L,
      (voteByteD (column [List.replicate L 0x00, List.replicate L 0xFF,
        List.replicate L 0x00] i)).2 = 8 := by
    intro i hi
    have hiL : i < L := List.mem_range.mp hi
    have : column [List.replicate L 0x00, List.replicate L 0xFF, List.replicate L 0x00] i =
        [0x00, 0xFF, 0x00] := by
      unfold column
      rw [List.map_cons, List.map_cons, List.map_cons, List.map_nil,
        getD_replicate_lt L _ i hiL, getD_replicate_lt L _ i hiL]
    rw [this]
    decide
  unfold correctedSum
  rw [List.map_congr_left hcol]
  simp [mul_comm]

theorem three_buffers_length (L : Nat) :
    ∀ f ∈ [List.replicate L 0x00, List.replicate L 0xFF, List.replicate L 0x00],
      f.length = L := by
  intro f hf
  rcases List.mem_cons.mp hf with rfl | hf
  · exact List.length_replicate _ _
  rcases List.mem_cons.mp hf with rfl | hf
  · exact List.length_replicate _ _
  rcases List.mem_cons.mp hf with rfl | hf
  · exact List.length_replicate _ _
  · cases hf

/-- The run of `vote` with an `int` of `w` bits on three buffers of `L` bytes
`0x00`, `0xFF`, `0x00`: no error, and the total `8 * L` brought into `w`
bits. -/
theorem voteW_three (w L : Nat) (hw : 0 < w) (out : Sink) (hacc : out.AcceptsAll) :
    ∃ r, voteW w out
        [List.replicate L 0x00, List.replicate L 0xFF, List.replicate L 0x00] = some r ∧
      r.err = none ∧ r.n = wrapInt w (8 * (L : Int)) := by
  refine ⟨wrapResult w ⟨{ out with accepted := (out.accepted ++
      decidedBytes [List.replicate L 0x00, List.replicate L 0xFF, List.replicate L 0x00]
        (List.range L)) }, 8 * (L : Int), none⟩, ?_, rfl, rfl⟩
  rw [voteW_eq w hw, vote_acceptsAll out _ L (by intro h; cases h)
    (three_buffers_length L) hacc, correctedSum_three L]
  rfl

/-- C16, with the width of `int`: for a non-empty list of buffers of one length
`L`, a sink that accepts every write and an `int` of `w` bits that can hold
`8 * L`, the total `vote` returns lies between 0 and `8 * L`, which is the bit
count `main` prints next to it; for `L = 0`, at every width and with any sink,
`vote` writes nothing and returns 0. -/
theorem voteW_total_bounds :
    (∀ (w : Nat) (out : Sink) (fins : List (List Nat)) (L : Nat), 0 < w → fins ≠ [] →
      (∀ f ∈ fins, f.length = L) → out.AcceptsAll → 8 * L < 2 ^ (w - 1) →
      ∃ r, voteW w out fins = some r ∧ r.err = none ∧ 0 ≤ r.n ∧ r.n ≤ 8 * (L : Int) ∧
        reportedBits w (L : Int) = 8 * (L : Int) ∧ r.n ≤ reportedBits w (L : Int)) ∧
    (∀ (w : Nat) (out : Sink) (fins : List (List Nat)), fins ≠ [] →
      (∀ f ∈ fins, f.length = 0) →
      ∃ r, voteW w out fins = some r ∧ r.out.accepted = out.accepted ∧ r.n = 0 ∧
        (out.AcceptsAll → r.err = none)) := by
  refine ⟨?_, ?_⟩
  · intro w out fins L hw hne hlen hacc hfit
    have hb := correctedSum_bounds fins hne (List.range L)
    rw [List.length_range] at hb
    have hfitZ : (8 * (L : Int)) < 2 ^ (w - 1) := by exact_mod_cast hfit
    have hpow : (0 : Int) < 2 ^ (w - 1) := by positivity
    have hn : wrapInt w (correctedSum fins (List.range L)) =
        correctedSum fins (List.range L) :=
      wrapInt_of_range w hw _ (by omega) (by omega)
    have hbits : reportedBits w (L : Int) = 8 * (L : Int) :=
      wrapInt_of_range w hw _ (by omega) hfitZ
    refine ⟨wrapResult w ⟨{ out with accepted :=
        (out.accepted ++ decidedBytes fins (List.range L)) },
      correctedSum fins (List.range L), none⟩, ?_, rfl, ?_, ?_, hbits, ?_⟩
    · rw [voteW_eq w hw, vote_acceptsAll out fins L hne hlen hacc]
      rfl
    · show 0 ≤ wrapInt w (correctedSum fins (List.range L))
      rw [hn]; exact hb.1
    · show wrapInt w (correctedSum fins (List.range L)) ≤ 8 * (L : Int)
      rw [hn]; exact hb.2
    · show wrapInt w (correctedSum fins (List.range L)) ≤ reportedBits w (L : Int)
      rw [hn, hbits]; exact hb.2
  · intro w out fins hne hlen
    obtain ⟨f0, rest, rfl⟩ := List.exists_cons_of_ne_nil hne
    have h0 : f0.length = 0 := hlen f0 (List.mem_cons_self _ _)
    have hv : voteW w out (f0 :: rest) =
        voteLoopW w (f0 :: rest) (List.range f0.length) out
          (List.replicate (f0 :: rest).length 0) 0 := by
      simp [voteW]
    rw [hv, h0, List.range_zero, voteLoopW]
    exact ⟨_, rfl, rfl, rfl, fun hacc => by simp [Sink.Flush, hacc.2]⟩

theorem voteW_total_bounds_witness :
    (0 < 32 ∧ [[0xFF, 0x00], [0x00, 0x00], [0xFF, 0x01]] ≠ ([] : List (List Nat)) ∧
      (∀ f ∈ [[0xFF, 0x00], [0x00, 0x00], [0xFF, 0x01]], f.length = 2) ∧
      (okSink []).AcceptsAll ∧ 8 * 2 < 2 ^ (32 - 1) ∧
      ∃ r, voteW 32 (okSink []) [[0xFF, 0x00], [0x00, 0x00], [0xFF, 0x01]] = some r ∧
        r.err = none ∧ 0 ≤ r.n ∧ r.n ≤ 8 * ((2 : Nat) : Int) ∧
        reportedBits 32 ((2 : Nat) : Int) = 8 * ((2 : Nat) : Int) ∧
        r.n ≤ reportedBits 32 ((2 : Nat) : Int)) ∧
    ([[], [], []] ≠ ([] : List (List Nat)) ∧ (∀ f ∈ [[], [], ([] : List Nat)], f.length = 0) ∧
      ∃ r, voteW 32 (okSink [7]) [[], [], []] = some r ∧
        r.out.accepted = (okSink [7]).accepted ∧ r.n = 0 ∧
        ((okSink [7]).AcceptsAll → r.err = none)) :=
  ⟨⟨by decide, by decide, by decide, ⟨fun _ => rfl, rfl⟩, by decide,
      voteW_total_bounds.1 32 (okSink []) [[0xFF, 0x00], [0x00, 0x00], [0xFF, 0x01]] 2
        (by decide) (by decide) (by decide) ⟨fun _ => rfl, rfl⟩ (by decide)⟩,
    by decide, by decide,
    voteW_total_bounds.2 32 (okSink [7]) [[], [], []] (by decide) (by decide)⟩

/-- C16, as the claim has it, on a target whose `int` has 32 bits: on three
buffers of `2 ^ 28` bytes `0x00`, `0xFF`, `0x00`, with a sink that accepts every
write, the exact total is `8 * 2 ^ 28 = 2 ^ 31`; `vote` returns a nil error and
the total `-2147483648`, which is below 0, and `main` prints the same wrapped
number as the bit count. -/
theorem voteW_total_wraps_int32 :
    (∀ f ∈ [List.replicate (2 ^ 28) 0x00, List.replicate (2 ^ 28) 0xFF,
        List.replicate (2 ^ 28) 0x00], f.length = 2 ^ 28) ∧
    (okSink []).AcceptsAll ∧
    ∃ r, voteW 32 (okSink []) [List.replicate (2 ^ 28) 0x00, List.replicate (2 ^ 28) 0xFF,
        List.replicate (2 ^ 28) 0x00] = some r ∧
      r.err = none ∧ r.n = -2147483648 ∧
      ¬ (0 ≤ r.n ∧ r.n ≤ 8 * ((2 ^ 28 : Nat) : Int)) ∧
      reportedBits 32 ((2 ^ 28 : Nat) : Int) = -2147483648 := by
  have hwrap : wrapInt 32 (8 * ((2 ^ 28 : Nat) : Int)) = -2147483648 := by
    norm_num [wrapInt]
  obtain ⟨r, hr, herr, hn⟩ := voteW_three 32 (2 ^ 28) (by decide) (okSink [])
    ⟨fun _ => rfl, rfl⟩
  rw [hwrap] at hn
  refine ⟨three_buffers_length (2 ^ 28), ⟨fun _ => rfl, rfl⟩, r, hr, herr, hn, ?_, hwrap⟩
  intro h
  have h0 := h.1
  rw [hn] at h0
  exact absurd h0 (by decide)

/-! ## The last column of the three-buffer example -/

/-- C17, as the code has it: in the column `[0x04, 0x04, 0x05]` the loop of
`voteByte` counts 1 of the 3 bytes with bit 0 set, bit 0 of the decided byte is
0, the decided byte is `0x04`, and bit 0 is the one position counted. -/
theorem voteByte_example_last_column :
    countOnes 0 [0x04, 0x04, 0x05] 0 = 1 ∧
    ones [0x04, 0x04, 0x05] 0 = 1 ∧
    voteByte [0x04, 0x04, 0x05] = some (0x04, 1) ∧
    Nat.testBit 0x04 0 = false ∧
    (List.range 8).filter (nonUnanimous [0x04, 0x04, 0x05]) = [0] := by
  decide

/-- C17, as the claim has it: the count for bit 0 of the column
`[0x04, 0x04, 0x05]` is not 2, and the decided bit 0 is not 1. -/
theorem voteByte_example_last_column_not_two :
    ¬ (countOnes 0 [0x04, 0x04, 0x05] 0 = 2 ∧
        ∃ b c, voteByte [0x04, 0x04, 0x05] = some (b, c) ∧ b.testBit 0 = true) ∧
    countOnes 0 [0x04, 0x04, 0x05] 0 ≠ 2 ∧
    ¬ (∃ b c, voteByte [0x04, 0x04, 0x05] = some (b, c) ∧ b.testBit 0 = true) := by
  have hv : voteByte [0x04, 0x04, 0x05] = some (0x04, 1) := by decide
  have hc : countOnes 0 [0x04, 0x04, 0x05] 0 ≠ 2 := by decide
  have hb : ¬ (∃ b c, voteByte [0x04, 0x04, 0x05] = some (b, c) ∧ b.testBit 0 = true) := by
    rintro ⟨b, c, h, hbit⟩
    rw [hv] at h
    simp only [Option.some.injEq, Prod.mk.injEq] at h
    rw [← h.1] at hbit
    exact absurd hbit (by decide)
  exact ⟨fun h => hc h.1, hc, hb⟩

/-! ## Repair of a minority of corrupted inputs -/

theorem differing_nil (y k : Nat) : differing [] y k = 0 := rfl

theorem differing_cons (b : Nat) (bt : List Nat) (y k : Nat) :
    differing (b :: bt) y k =
      (if b.testBit k != y.testBit k then 1 else 0) + differing bt y k := by
  unfold differing
  cases hb : (b.testBit k != y.testBit k) <;> simp [List.filter_cons, hb]
  omega

theorem differing_add_ones (bt : List Nat) (y k : Nat) (hy : y.testBit k = true) :
    differing bt y k + ones bt k = bt.length := by
  induction bt with
  | nil => simp [differing_nil, ones_nil]
  | cons b rest ih =>
    rw [differing_cons, ones_cons, hy]
    cases hb : b.testBit k <;> simp <;> omega

theorem differing_eq_ones (bt : List Nat) (y k : Nat) (hy : y.testBit k = false) :
    differing bt y k = ones bt k := by
  induction bt with
  | nil => simp [differing_nil, ones_nil]
  | cons b rest ih =>
    rw [differing_cons, ones_cons, hy, ih]
    cases hb : b.testBit k <;> simp

/-- When at every bit position fewer than half of the bytes of the column
differ from the byte `y`, the vote decides `y`. -/
theorem voteByteD_fst_of_minority (bt : List Nat) (y : Nat) (hne : bt ≠ [])
    (hb : ∀ b ∈ bt, b < 256) (hy : y < 256)
    (hd : ∀ k, k < 8 → 2 * differing bt y k < bt.length) : (voteByteD bt).1 = y := by
  have hv : voteByteD bt = bitwiseVote bt := by
    simp [voteByteD, voteByte_eq_bitwiseVote bt hne hb]
  rw [hv]
  apply byte_eq_of_testBit (bitwiseVote_lt bt) hy
  intro k hk
  rw [bitwiseVote_testBit bt hk]
  unfold majority
  have hdk := hd k hk
  have hle := ones_le bt k
  cases hyk : y.testBit k
  · have := differing_eq_ones bt y k hyk
    simp only [decide_eq_false_iff_not]
    omega
  · have := differing_add_ones bt y k hyk
    simp only [decide_eq_true_eq]
    omega

theorem differing_add_count_le (bt : List Nat) (x k : Nat) :
    differing bt x k + (bt.filter (fun b => decide (b = x))).length ≤ bt.length := by
  induction bt with
  | nil => simp [differing_nil]
  | cons b rest ih =>
    rw [differing_cons]
    by_cases hbx : b = x
    · subst hbx
      simp [List.filter_cons]
      omega
    · simp only [List.filter_cons, hbx, decide_False, List.length_cons]
      split <;> simp <;> omega

theorem column_lt (fins : List (List Nat)) (i : Nat) (hi : ∀ f ∈ fins, i < f.length)
    (hb : ∀ f ∈ fins, ∀ b ∈ f, b < 256) : ∀ b ∈ column fins i, b < 256 := by
  intro b hbm
  unfold column at hbm
  obtain ⟨f, hf, rfl⟩ := List.mem_map.mp hbm
  rw [List.getD_eq_getElem _ _ (hi f hf)]
  exact hb f hf _ (List.getElem_mem _)

/-- C13: corruption that stays a strict minority at every bit is repaired: for
`N ≥ 1` buffers of bytes of length `L` and a buffer `B` of bytes of length `L`,
if at every offset `i` and bit position `k` the number `d` of inputs whose bit
`k` at offset `i` differs from that of `B` has `2 * d < N`, then `vote`, with a
sink that accepts every write, writes exactly `B`.  In particular, when
strictly more than half of the bytes of a column equal `x`, `voteByte` returns
`x`. -/
theorem vote_repairs_minority :
    (∀ (out : Sink) (fins : List (List Nat)) (B : List Nat) (L : Nat), fins ≠ [] →
      (∀ f ∈ fins, f.length = L) → B.length = L →
      (∀ f ∈ fins, ∀ b ∈ f, b < 256) → (∀ b ∈ B, b < 256) → out.AcceptsAll →
      (∀ i, i < L → ∀ k, k < 8 →
        2 * differing (column fins i) (B.getD i 0) k < fins.length) →
      ∃ r, vote out fins = some r ∧ r.err = none ∧ r.out.accepted = out.accepted ++ B) ∧
    (∀ (bt : List Nat) (x : Nat), (∀ b ∈ bt, b < 256) →
      bt.length < 2 * (bt.filter (fun b => decide (b = x))).length →
      ∃ c, voteByte bt = some (x, c)) := by
  refine ⟨?_, ?_⟩
  · intro out fins B L hne hlen hB hb hBb hacc hd
    refine ⟨_, vote_acceptsAll out fins L hne hlen hacc, rfl, ?_⟩
    show out.accepted ++ decidedBytes fins (List.range L) = out.accepted ++ B
    congr 1
    have hmap : decidedBytes fins (List.range L) =
        (List.range L).map (fun i => B.getD i 0) := by
      unfold decidedBytes
      apply List.map_congr_left
      intro i hi
      have hiL : i < L := List.mem_range.mp hi
      have hin : ∀ f ∈ fins, i < f.length := fun f hf => by rw [hlen f hf]; exact hiL
      apply voteByteD_fst_of_minority _ _ (column_ne_nil fins i hne)
        (column_lt fins i hin hb)
      · rw [List.getD_eq_getElem _ _ (by omega : i < B.length)]
        exact hBb _ (List.getElem_mem _)
      · intro k hk
        rw [column_length]
        exact hd i hiL k hk
    rw [hmap, ← hB]
    exact map_getD_range B
  · intro bt x hb hmaj
    have hne : bt ≠ [] := by
      intro h
      rw [h] at hmaj
      simp at hmaj
    have hx : x < 256 := by
      have hpos : 0 < (bt.filter (fun b => decide (b = x))).length := by omega
      obtain ⟨z, hz⟩ := List.exists_mem_of_length_pos hpos
      have hz2 := List.mem_filter.mp hz
      have hzx : z = x := by simpa using hz2.2
      rw [← hzx]
      exact hb z hz2.1
    have hfst := voteByteD_fst_of_minority bt x hne hb hx (fun k _ => by
      have := differing_add_count_le bt x k
      omega)
    refine ⟨(voteByteD bt).2, ?_⟩
    rw [voteByte_eq_voteByteD bt hne, ← hfst]

theorem vote_repairs_minority_witness :
    ([[0x12, 0x34], [0x13, 0x34], [0x12, 0xB4]] ≠ ([] : List (List Nat)) ∧
      (∀ f ∈ [[0x12, 0x34], [0x13, 0x34], [0x12, 0xB4]], f.length = 2) ∧
      [0x12, 0x34].length = 2 ∧
      (∀ f ∈ [[0x12, 0x34], [0x13, 0x34], [0x12, 0xB4]], ∀ b ∈ f, b < 256) ∧
      (∀ b ∈ [0x12, 0x34], b < 256) ∧ (okSink []).AcceptsAll ∧
      (∀ i, i < 2 → ∀ k, k < 8 →
        2 * differing (column [[0x12, 0x34], [0x13, 0x34], [0x12, 0xB4]] i)
          ([0x12, 0x34].getD i 0) k < [[0x12, 0x34], [0x13, 0x34], [0x12, 0xB4]].length) ∧
      ∃ r, vote (okSink []) [[0x12, 0x34], [0x13, 0x34], [0x12, 0xB4]] = some r ∧
        r.err = none ∧ r.out.accepted = (okSink []).accepted ++ [0x12, 0x34]) ∧
    ((∀ b ∈ [0x21, 0x20, 0x21], b < 256) ∧
      [0x21, 0x20, 0x21].length <
        2 * ([0x21, 0x20, 0x21].filter (fun b => decide (b = 0x21))).length ∧
      ∃ c, voteByte [0x21, 0x20, 0x21] = some (0x21, c)) :=
  ⟨⟨by decide, by decide, by decide, by decide, by decide, ⟨fun _ => rfl, rfl⟩,
      by decide,
      vote_repairs_minority.1 (okSink []) [[0x12, 0x34], [0x13, 0x34], [0x12, 0xB4]]
        [0x12, 0x34] 2 (by decide) (by decide) (by decide) (by decide) (by decide)
        ⟨fun _ => rfl, rfl⟩ (by decide)⟩,
    by decide, by decide,
    vote_repairs_minority.2 [0x21, 0x20, 0x21] 0x21 (by decide) (by decide)⟩

/-! ## Concatenated buffers -/

theorem concatBuffers_cons (a b : List Nat) (As Bs : List (List Nat)) :
    concatBuffers (a :: As) (b :: Bs) = (a ++ b) :: concatBuffers As Bs := rfl

theorem getD_append_left (a b : List Nat) (i : Nat) (h : i < a.length) :
    (a ++ b).getD i 0 = a.getD i 0 := by
  simp [List.getElem?_append_left h]

theorem getD_append_right (a b : List Nat) (j : Nat) :
    (a ++ b).getD (a.length + j) 0 = b.getD j 0 := by
  simp [List.getElem?_append_right (Nat.le_add_right a.length j)]

theorem concatBuffers_length (As Bs : List (List Nat)) (hN : As.length = Bs.length) :
    (concatBuffers As Bs).length = As.length := by
  simp [concatBuffers, hN]

theorem concatBuffers_mem_length (As Bs : List (List Nat)) (La Lb : Nat)
    (hA : ∀ a ∈ As, a.length = La) (hB : ∀ b ∈ Bs, b.length = Lb) :
    ∀ f ∈ concatBuffers As Bs, f.length = La + Lb := by
  induction As generalizing Bs with
  | nil => intro f hf; simp [concatBuffers] at hf
  | cons a As ih =>
    cases Bs with
    | nil => intro f hf; simp [concatBuffers] at hf
    | cons b Bs =>
      intro f hf
      rw [concatBuffers_cons] at hf
      rcases List.mem_cons.mp hf with rfl | hf
      · rw [List.length_append, hA a (List.mem_cons_self _ _),
          hB b (List.mem_cons_self _ _)]
      · exact ih Bs (fun x hx => hA x (List.mem_cons_of_mem _ hx))
          (fun x hx => hB x (List.mem_cons_of_mem _ hx)) f hf

theorem column_concat_left (As Bs : List (List Nat)) (La i : Nat)
    (hN : As.length = Bs.length) (hA : ∀ a ∈ As, a.length = La) (hi : i < La) :
    column (concatBuffers As Bs) i = column As i := by
  induction As generalizing Bs with
  | nil => simp [concatBuffers, column]
  | cons a As ih =>
    cases Bs with
    | nil => simp at hN
    | cons b Bs =>
      rw [concatBuffers_cons, column_cons, column_cons,
        getD_append_left a b i (by rw [hA a (List.mem_cons_self _ _)]; exact hi),
        ih Bs (by simpa using hN) (fun x hx => hA x (List.mem_cons_of_mem _ hx))]

theorem column_concat_right (As Bs : List (List Nat)) (La j : Nat)
    (hN : As.length = Bs.length) (hA : ∀ a ∈ As, a.length = La) :
    column (concatBuffers As Bs) (La + j) = column Bs j := by
  induction As generalizing Bs with
  | nil =>
    cases Bs with
    | nil => simp [concatBuffers, column]
    | cons b Bs => simp at hN
  | cons a As ih =>
    cases Bs with
    | nil => simp at hN
    | cons b Bs =>
      have ha : a.length = La := hA a (List.mem_cons_self _ _)
      rw [concatBuffers_cons, column_cons, column_cons, ← ha, getD_append_right a b j, ha,
        ih Bs (by simpa using hN) (fun x hx => hA x (List.mem_cons_of_mem _ hx))]

/-- Whatever is computed from the columns of the concatenated buffers, offset by
offset, is what is computed from the columns of the first buffers followed by
what is computed from the columns of the second ones. -/
theorem map_column_concat {α : Type} (g : List Nat → α) (As Bs : List (List Nat))
    (La Lb : Nat) (hN : As.length = Bs.length) (hA : ∀ a ∈ As, a.length = La) :
    (List.range (La + Lb)).map (fun i => g (column (concatBuffers As Bs) i)) =
      (List.range La).map (fun i => g (column As i)) ++
        (List.range Lb).map (fun i => g (column Bs i)) := by
  rw [List.range_add, List.map_append, List.map_map]
  congr 1
  · apply List.map_congr_left
    intro i hi
    rw [column_concat_left As Bs La i hN hA (List.mem_range.mp hi)]
  · apply List.map_congr_left
    intro j _
    simp only [Function.comp_apply]
    rw [column_concat_right As Bs La j hN hA]

/-- C12: the columns are voted one by one, so `vote` distributes over
concatenation: for `N ≥ 1` buffers `A_1 .. A_N` of length `La` and `B_1 .. B_N`
of length `Lb`, with a sink that accepts every write, the bytes `vote` writes
on `A_1 ++ B_1, ..., A_N ++ B_N` are the bytes `wA` it writes on the `A`s
followed by the bytes `wB` it writes on the `B`s, and the total is the sum of
the two totals; what the column buffer held before an offset does not change
what it holds after the inner loop. -/
theorem vote_concat (out : Sink) (As Bs : List (List Nat)) (La Lb : Nat) (hne : As ≠ [])
    (hN : As.length = Bs.length) (hA : ∀ a ∈ As, a.length = La)
    (hB : ∀ b ∈ Bs, b.length = Lb) (hacc : out.AcceptsAll) :
    ∃ (wA wB : List Nat) (nA nB : Int),
      vote out As = some ⟨{ out with accepted := out.accepted ++ wA }, nA, none⟩ ∧
      vote out Bs = some ⟨{ out with accepted := out.accepted ++ wB }, nB, none⟩ ∧
      vote out (concatBuffers As Bs) =
        some ⟨{ out with accepted := out.accepted ++ (wA ++ wB) }, nA + nB, none⟩ ∧
      wA.length = La ∧ wB.length = Lb ∧
      (∀ i, i < La + Lb → ∀ bs bs' : List Nat, bs.length = As.length →
        bs'.length = As.length →
        fillColumn i (concatBuffers As Bs) 0 bs =
          fillColumn i (concatBuffers As Bs) 0 bs') := by
  have hneB : Bs ≠ [] := by
    intro h
    rw [h] at hN
    exact hne (List.eq_nil_of_length_eq_zero hN)
  have hlenAB := concatBuffers_length As Bs hN
  have hneAB : concatBuffers As Bs ≠ [] := by
    intro h
    rw [h] at hlenAB
    exact hne (List.eq_nil_of_length_eq_zero hlenAB.symm)
  have hAB := concatBuffers_mem_length As Bs La Lb hA hB
  refine ⟨decidedBytes As (List.range La), decidedBytes Bs (List.range Lb),
    correctedSum As (List.range La), correctedSum Bs (List.range Lb),
    vote_acceptsAll out As La hne hA hacc, vote_acceptsAll out Bs Lb hneB hB hacc, ?_,
    by simp [decidedBytes_length], by simp [decidedBytes_length], ?_⟩
  · rw [vote_acceptsAll out (concatBuffers As Bs) (La + Lb) hneAB hAB hacc]
    have h1 : decidedBytes (concatBuffers As Bs) (List.range (La + Lb)) =
        decidedBytes As (List.range La) ++ decidedBytes Bs (List.range Lb) :=
      map_column_concat (fun c => (voteByteD c).1) As Bs La Lb hN hA
    have h2 : correctedSum (concatBuffers As Bs) (List.range (La + Lb)) =
        correctedSum As (List.range La) + correctedSum Bs (List.range Lb) := by
      unfold correctedSum
      rw [map_column_concat (fun c => (voteByteD c).2) As Bs La Lb hN hA, List.sum_append]
    rw [h1, h2]
  · intro i hi bs bs' hbs hbs'
    have hin : ∀ f ∈ concatBuffers As Bs, i < f.length := fun f hf => by
      rw [hAB f hf]; exact hi
    rw [fillColumn_zero i _ hin bs (by rw [hbs, hlenAB]),
      fillColumn_zero i _ hin bs' (by rw [hbs', hlenAB])]

theorem vote_concat_witness :
    [[1, 2], [1, 3], [5, 2]] ≠ ([] : List (List Nat)) ∧
    [[1, 2], [1, 3], [5, 2]].length = [[7], [7], [6]].length ∧
    (∀ a ∈ [[1, 2], [1, 3], [5, 2]], a.length = 2) ∧
    (∀ b ∈ [[7], [7], [6]], b.length = 1) ∧ (okSink []).AcceptsAll ∧
    ∃ (wA wB : List Nat) (nA nB : Int),
      vote (okSink []) [[1, 2], [1, 3], [5, 2]] =
        some ⟨{ okSink [] with accepted := (okSink []).accepted ++ wA }, nA, none⟩ ∧
      vote (okSink []) [[7], [7], [6]] =
        some ⟨{ okSink [] with accepted := (okSink []).accepted ++ wB }, nB, none⟩ ∧
      vote (okSink []) (concatBuffers [[1, 2], [1, 3], [5, 2]] [[7], [7], [6]]) =
        some ⟨{ okSink [] with accepted := (okSink []).accepted ++ (wA ++ wB) },
          nA + nB, none⟩ ∧
      wA.length = 2 ∧ wB.length = 1 ∧
      (∀ i, i < 2 + 1 → ∀ bs bs' : List Nat,
        bs.length = [[1, 2], [1, 3], [5, 2]].length →
        bs'.length = [[1, 2], [1, 3], [5, 2]].length →
        fillColumn i (concatBuffers [[1, 2], [1, 3], [5, 2]] [[7], [7], [6]]) 0 bs =
          fillColumn i (concatBuffers [[1, 2], [1, 3], [5, 2]] [[7], [7], [6]]) 0 bs') :=
  ⟨by decide, by decide, by decide, by decide, ⟨fun _ => rfl, rfl⟩,
    vote_concat (okSink []) [[1, 2], [1, 3], [5, 2]] [[7], [7], [6]] 2 1 (by decide)
      (by decide) (by decide) (by decide) ⟨fun _ => rfl, rfl⟩⟩

end Bitvote
